import Mathlib

/-!
# Verification of the `bitrank` succinct rank/select structure

Shallow embedding of `crates/string-offsets/src/bitrank.rs`:
a bit-vector with a two-level rank index (`Block` / `BitRankBuilder` /
`BitRank`), together with proofs of the specification's claims.

Machine integers are modelled as `Nat`; the widths involved
(`u16` sub-block counters bounded by 16384, `u64` ranks, `u128` words)
never overflow on the domains the code manipulates, and word values are
tracked as `< 2 ^ 128` invariants.  Fallible operations (Rust `assert!`
panics) are modelled with `Option`.
-/

namespace BitRankModel

/-- `u128` in the Rust source. -/
def SubblockBitsWidth : Nat := 128

/-- `BITS_PER_BLOCK` in the Rust source. -/
def BITS_PER_BLOCK : Nat := 16384

/-- `BITS_PER_SUB_BLOCK = u128::BITS` in the Rust source. -/
def BITS_PER_SUB_BLOCK : Nat := 128

/-- `SUB_BLOCKS_PER_BLOCK = BITS_PER_BLOCK / BITS_PER_SUB_BLOCK`. -/
def SUB_BLOCKS_PER_BLOCK : Nat := BITS_PER_BLOCK / BITS_PER_SUB_BLOCK

theorem SUB_BLOCKS_PER_BLOCK_eq : SUB_BLOCKS_PER_BLOCK = 128 := rfl

/-- Fueled population count; the fuel is peeled structurally so the kernel can
evaluate it, and `popCount_unfold` recovers the natural recursion. -/
def popCountAux : Nat → Nat → Nat
  | 0, _ => 0
  | fuel + 1, n => if n = 0 then 0 else n % 2 + popCountAux fuel (n / 2)

/-- `count_ones` of the Rust source, on `Nat`. -/
def popCount (n : Nat) : Nat := popCountAux n n

theorem popCountAux_congr : ∀ (f g n : Nat), n ≤ f → n ≤ g →
    popCountAux f n = popCountAux g n := by
  intro f
  induction f with
  | zero =>
    intro g n hf _
    interval_cases n
    cases g <;> simp [popCountAux]
  | succ f ih =>
    intro g n hf hg
    match g with
    | 0 =>
      interval_cases n
      simp [popCountAux]
    | g + 1 =>
      by_cases hn : n = 0
      · simp [popCountAux, hn]
      · have hdiv : n / 2 < n := Nat.div_lt_self (Nat.pos_of_ne_zero hn) (by omega)
        simp only [popCountAux, if_neg hn]
        rw [ih g (n / 2) (by omega) (by omega)]

theorem popCount_unfold (n : Nat) :
    popCount n = if n = 0 then 0 else n % 2 + popCount (n / 2) := by
  by_cases hn : n = 0
  · simp [popCount, hn, popCountAux]
  · have h1 : 0 < n := Nat.pos_of_ne_zero hn
    have hdiv : n / 2 < n := Nat.div_lt_self h1 (by omega)
    unfold popCount
    match hm : n, h1 with
    | m + 1, _ =>
      simp only [popCountAux, if_neg hn]
      congr 1
      exact popCountAux_congr m ((m + 1) / 2) ((m + 1) / 2) (by omega) le_rfl

theorem popCount_zero : popCount 0 = 0 := rfl

/-- Fueled helper for `trailing_zeros` on a nonzero value. -/
def tzAux : Nat → Nat → Nat
  | 0, _ => 0
  | fuel + 1, n => if n = 0 then 0 else if n % 2 = 1 then 0 else tzAux fuel (n / 2) + 1

theorem tzAux_congr : ∀ (f g n : Nat), n ≤ f → n ≤ g → tzAux f n = tzAux g n := by
  intro f
  induction f with
  | zero =>
    intro g n hf _
    interval_cases n
    cases g <;> simp [tzAux]
  | succ f ih =>
    intro g n hf hg
    match g with
    | 0 =>
      interval_cases n
      simp [tzAux]
    | g + 1 =>
      by_cases hn : n = 0
      · simp [tzAux, hn]
      · by_cases hodd : n % 2 = 1
        · simp [tzAux, hn, hodd]
        · have hdiv : n / 2 < n := Nat.div_lt_self (Nat.pos_of_ne_zero hn) (by omega)
          simp only [tzAux, if_neg hn, if_neg hodd]
          rw [ih g (n / 2) (by omega) (by omega)]

/-- `u128::trailing_zeros` of the Rust source: 128 on the value 0
(the code only calls it on nonzero values). -/
def trailingZeros (n : Nat) : Nat :=
  if n = 0 then SubblockBitsWidth else tzAux n n

theorem trailingZeros_unfold (n : Nat) (hn : n ≠ 0) :
    trailingZeros n = if n % 2 = 1 then 0 else trailingZeros (n / 2) + 1 := by
  have h1 : 0 < n := Nat.pos_of_ne_zero hn
  by_cases hodd : n % 2 = 1
  · unfold trailingZeros
    match hm : n, h1 with
    | m + 1, _ => simp [tzAux, hn, hodd]
  · have h2 : n / 2 ≠ 0 := by
      intro h
      have := Nat.div_add_mod n 2
      omega
    unfold trailingZeros
    rw [if_neg hn, if_neg h2, if_neg hodd]
    match hm : n, h1 with
    | m + 1, _ =>
      simp only [tzAux, if_neg hn, if_neg hodd]
      congr 1
      exact tzAux_congr m ((m + 1) / 2) ((m + 1) / 2) (by omega) le_rfl

/-- The `Block` struct of the Rust source: `rank` is the number of bits set in
all previous blocks, `sub_blocks` the per-sub-block prefix counts, `bits` the
raw 128-bit words (most significant bit first). -/
structure Block where
  rank : Nat
  sub_blocks : List Nat
  bits : List Nat
deriving DecidableEq, Repr

/-- The all-zero block (`ZERO_BLOCK` in `BitRankBuilder::push`). -/
def zeroBlock : Block :=
  { rank := 0
    sub_blocks := List.replicate SUB_BLOCKS_PER_BLOCK 0
    bits := List.replicate SUB_BLOCKS_PER_BLOCK 0 }

/-- `Block::set`: sets the bit at `index`, panicking (`none`) if `index` is out
of range or the bit is already set. -/
def Block.set (b : Block) (index : Nat) : Option Block :=
  if index < BITS_PER_BLOCK then
    let chunk_idx := index / BITS_PER_SUB_BLOCK
    let bit_idx := index % BITS_PER_SUB_BLOCK
    let mask : Nat := 2 ^ ((BITS_PER_SUB_BLOCK - 1) - bit_idx)
    if (b.bits.getD chunk_idx 0) &&& mask = 0 then
      some { b with bits := b.bits.set chunk_idx ((b.bits.getD chunk_idx 0) ^^^ mask) }
    else
      none
  else
    none

/-- Let-free unfolding of `Block.set`. -/
theorem Block.set_eq (b : Block) (index : Nat) :
    b.set index =
      (if index < BITS_PER_BLOCK then
        if b.bits.getD (index / BITS_PER_SUB_BLOCK) 0 &&&
            2 ^ ((BITS_PER_SUB_BLOCK - 1) - index % BITS_PER_SUB_BLOCK) = 0 then
          some { b with bits := (b.bits.set (index / BITS_PER_SUB_BLOCK)
            (b.bits.getD (index / BITS_PER_SUB_BLOCK) 0 ^^^
              2 ^ ((BITS_PER_SUB_BLOCK - 1) - index % BITS_PER_SUB_BLOCK))) }
        else none
      else none) := rfl

/-- `Block::rank_select`: the rank at `local_idx` within this block (including
`rank` and the sub-block prefix counts), and the position of the highest set
bit strictly before `local_idx` if one exists in the same 128-bit sub-block. -/
def Block.rank_select (b : Block) (local_idx : Nat) : Nat × Option Nat :=
  let rank := b.rank + b.sub_blocks.getD (local_idx / BITS_PER_SUB_BLOCK) 0
  let remainder := local_idx % BITS_PER_SUB_BLOCK
  let last_chunk := local_idx / BITS_PER_SUB_BLOCK
  let masked : Nat :=
    if remainder = 0 then 0
    else (b.bits.getD last_chunk 0) >>> (BITS_PER_SUB_BLOCK - remainder)
  let rank := rank + popCount masked
  let select : Option Nat :=
    if masked = 0 then none
    else some (local_idx - trailingZeros masked - 1)
  (rank, select)

/-- `Block::total_rank`: `sub_blocks` entry of the last sub-block, plus `rank`,
plus the population count of the words from the last sub-block on. -/
def Block.total_rank (b : Block) : Nat :=
  b.sub_blocks.getD (SUB_BLOCKS_PER_BLOCK - 1) 0 + b.rank
    + ((b.bits.drop (SUB_BLOCKS_PER_BLOCK - 1)).map popCount).sum

/-- The `BitRankBuilder` struct. -/
structure BitRankBuilder where
  blocks : List Block
deriving DecidableEq, Repr

/-- The `BitRank` struct: the finished, immutable artifact. -/
structure BitRank where
  blocks : List Block
deriving DecidableEq, Repr

/-- Replace the last element of a list (`last_mut` assignment in Rust). -/
def setLastTo (l : List Block) (x : Block) : List Block := l.dropLast ++ [x]

/-- The loop body of `BitRankBuilder::finish_last_block`: `sub_blocks[i]` is
assigned the running count before word `i` is added; returns the rewritten
prefix-count list and the final running count. -/
def subCountsFrom : List Nat → Nat → List Nat × Nat
  | [], local_rank => ([], local_rank)
  | chunk :: rest, local_rank =>
    let (tail, total) := subCountsFrom rest (local_rank + popCount chunk)
    (local_rank :: tail, total)

/-- `BitRankBuilder::finish_last_block`: recomputes the last block's
`sub_blocks` from its bits and returns that block's total rank
(its `rank` plus its population count); returns 0 when there are no blocks. -/
def BitRankBuilder.finish_last_block (b : BitRankBuilder) : BitRankBuilder × Nat :=
  match b.blocks.getLast? with
  | some block =>
    (⟨setLastTo b.blocks { block with sub_blocks := (subCountsFrom block.bits 0).1 }⟩,
      block.rank + (subCountsFrom block.bits 0).2)
  | none => (b, 0)

/-- The extension step of `push`: when the target block index is beyond the
current last block, finalize the last block and append zero blocks carrying
the running rank until the target block exists. -/
def BitRankBuilder.pushBlocks (b : BitRankBuilder) (position : Nat) : List Block :=
  if b.blocks.length ≤ position / BITS_PER_BLOCK then
    b.finish_last_block.1.blocks ++
      List.replicate (position / BITS_PER_BLOCK + 1 - b.finish_last_block.1.blocks.length)
        { zeroBlock with rank := b.finish_last_block.2 }
  else
    b.blocks

/-- `BitRankBuilder::push`: panics (`none`) when the target block index is more
than one behind the existing block count, extends the block list with
`pushBlocks` when needed, then sets the local bit in the last block (which
panics on an already-set bit). -/
def BitRankBuilder.push (b : BitRankBuilder) (position : Nat) : Option BitRankBuilder :=
  if b.blocks.length ≤ position / BITS_PER_BLOCK + 1 then
    (b.pushBlocks position).getLast?.bind fun block =>
      (block.set (position % BITS_PER_BLOCK)).map
        fun nb => ⟨setLastTo (b.pushBlocks position) nb⟩
  else
    none

/-- `BitRankBuilder::new` (also `Default::default`). -/
def BitRankBuilder.new : BitRankBuilder := ⟨[]⟩

/-- `BitRankBuilder::with_capacity`: capacity is only a performance hint, so
the resulting builder state is the empty block list. -/
def BitRankBuilder.with_capacity (_cap : Nat) : BitRankBuilder := ⟨[]⟩

/-- `BitRankBuilder::finish`. -/
def BitRankBuilder.finish (b : BitRankBuilder) : BitRank :=
  ⟨b.finish_last_block.1.blocks⟩

/-- `BitRank::max_rank`: `total_rank` of the last block, 0 when empty. -/
def BitRank.max_rank (br : BitRank) : Nat :=
  match br.blocks.getLast? with
  | some b => b.total_rank
  | none => 0

/-- `BitRank::rank_select`. -/
def BitRank.rank_select (br : BitRank) (idx : Nat) : Nat × Option Nat :=
  if br.blocks.length ≤ idx / BITS_PER_BLOCK then
    (br.max_rank, none)
  else
    (((br.blocks.getD (idx / BITS_PER_BLOCK) zeroBlock).rank_select (idx % BITS_PER_BLOCK)).1,
      ((br.blocks.getD (idx / BITS_PER_BLOCK) zeroBlock).rank_select (idx % BITS_PER_BLOCK)).2.map
        fun i => idx / BITS_PER_BLOCK * BITS_PER_BLOCK + i)

/-- `BitRank::rank`. -/
def BitRank.rank (br : BitRank) (idx : Nat) : Nat :=
  (br.rank_select idx).1

/-- The `bitrank` helper of the source's test suite: pushes all positions into
a fresh builder and finishes; `none` models any panic along the way. -/
def bitrank (positions : List Nat) : Option BitRank :=
  (positions.foldlM BitRankBuilder.push BitRankBuilder.new).map BitRankBuilder.finish

/-! ### Bit-level semantics of the structure -/

/-- Whether the bit for local index `li` is set in the block
(msb-first within each 128-bit word, as documented in the source). -/
def Block.testAt (b : Block) (li : Nat) : Bool :=
  (b.bits.getD (li / BITS_PER_SUB_BLOCK) 0).testBit
    ((BITS_PER_SUB_BLOCK - 1) - li % BITS_PER_SUB_BLOCK)

/-- Whether global position `q` is present in the block sequence. -/
def memAt (bs : List Block) (q : Nat) : Bool :=
  (bs.getD (q / BITS_PER_BLOCK) zeroBlock).testAt (q % BITS_PER_BLOCK)

/-- Total population count of a list of words. -/
def wordOnes (ws : List Nat) : Nat := (ws.map popCount).sum

theorem wordOnes_nil : wordOnes [] = 0 := rfl

theorem wordOnes_cons (w : Nat) (ws : List Nat) :
    wordOnes (w :: ws) = popCount w + wordOnes ws := by
  simp [wordOnes]

theorem wordOnes_append (xs ys : List Nat) :
    wordOnes (xs ++ ys) = wordOnes xs + wordOnes ys := by
  simp [wordOnes]

/-! ### Population-count lemmas -/

theorem popCount_mod_div (n : Nat) : popCount n = n % 2 + popCount (n / 2) := by
  rw [popCount_unfold]
  by_cases h : n = 0
  · simp [h, popCount_zero]
  · simp [h]

theorem popCount_shiftRight_countP (n : Nat) :
    ∀ r, r ≤ n → ∀ w, w < 2 ^ n →
      popCount (w >>> (n - r)) = (List.range r).countP (fun b => w.testBit (n - 1 - b)) := by
  intro r
  induction r with
  | zero =>
    intro _ w hw
    have h0 : w >>> n = 0 := by
      rw [Nat.shiftRight_eq_div_pow]
      exact Nat.div_eq_of_lt hw
    simp [h0, popCount_zero]
  | succ r ih =>
    intro hr w hw
    have hs : n - (r + 1) + 1 = n - r := by omega
    have hmod : w >>> (n - (r + 1)) % 2 = if w.testBit (n - (r + 1)) then 1 else 0 := by
      have ht : w.testBit (n - (r + 1)) = decide (w / 2 ^ (n - (r + 1)) % 2 = 1) :=
        Nat.testBit_to_div_mod
      rw [Nat.shiftRight_eq_div_pow]
      rcases Nat.mod_two_eq_zero_or_one (w / 2 ^ (n - (r + 1))) with h | h <;>
        simp [h, ht]
    have hdiv : w >>> (n - (r + 1)) / 2 = w >>> (n - r) := by
      rw [← hs, Nat.shiftRight_succ]
    rw [popCount_mod_div, hmod, hdiv, ih (by omega) w hw, List.range_succ,
      List.countP_append]
    have hidx : n - 1 - r = n - (r + 1) := by omega
    rw [List.countP_cons]
    simp only [List.countP_nil, hidx]
    by_cases hb : w.testBit (n - (r + 1)) <;> simp [hb, Nat.add_comm]

theorem popCount_countP {n w : Nat} (hw : w < 2 ^ n) :
    popCount w = (List.range n).countP (fun b => w.testBit (n - 1 - b)) := by
  have := popCount_shiftRight_countP n n le_rfl w hw
  simpa using this

/-- `countP` only depends on the predicate's values on the list. -/
theorem countP_ext {α : Type} (l : List α) (p q : α → Bool) (h : ∀ x ∈ l, p x = q x) :
    l.countP p = l.countP q := by
  induction l with
  | nil => rfl
  | cons a l ih =>
    rw [List.countP_cons, List.countP_cons, h a (by simp),
      ih (fun x hx => h x (by simp [hx]))]

theorem wordOnes_countP :
    ∀ ws : List Nat, (∀ w ∈ ws, w < 2 ^ 128) →
      (List.range (ws.length * 128)).countP
        (fun li => (ws.getD (li / 128) 0).testBit (127 - li % 128)) = wordOnes ws := by
  intro ws
  induction ws with
  | nil => simp [wordOnes_nil]
  | cons w ws ih =>
    intro hall
    have hw : w < 2 ^ 128 := hall w (by simp)
    have hlen : (w :: ws).length * 128 = 128 + ws.length * 128 := by
      simp [List.length_cons]
      ring
    rw [hlen, List.range_add, List.countP_append, List.countP_map, wordOnes_cons]
    congr 1
    · rw [countP_ext (List.range 128) _ (fun b => w.testBit (127 - b))
        (by
          intro b hb
          rw [List.mem_range] at hb
          have h1 : b / 128 = 0 := Nat.div_eq_of_lt hb
          have h2 : b % 128 = b := Nat.mod_eq_of_lt hb
          rw [h1, h2]
          rfl)]
      have := popCount_countP (n := 128) hw
      simp at this
      rw [← this]
    · rw [← ih (fun x hx => hall x (by simp [hx]))]
      apply countP_ext
      intro li _
      have h1 : (128 + li) / 128 = li / 128 + 1 := by
        rw [Nat.add_comm]
        exact Nat.add_div_right li (by omega)
      have h2 : (128 + li) % 128 = li % 128 := by omega
      simp only [Function.comp]
      rw [h1, h2]
      rfl

/-! ### `subCountsFrom` lemmas -/

theorem subCountsFrom_fst_length (ws : List Nat) :
    ∀ acc, ((subCountsFrom ws acc).1).length = ws.length := by
  induction ws with
  | nil => intro acc; rfl
  | cons w ws ih => intro acc; simp [subCountsFrom, ih]

theorem subCountsFrom_snd (ws : List Nat) :
    ∀ acc, (subCountsFrom ws acc).2 = acc + wordOnes ws := by
  induction ws with
  | nil => intro acc; simp [subCountsFrom, wordOnes_nil]
  | cons w ws ih =>
    intro acc
    simp [subCountsFrom, ih, wordOnes_cons]
    omega

theorem subCountsFrom_fst_getD (ws : List Nat) :
    ∀ acc s, s < ws.length →
      ((subCountsFrom ws acc).1).getD s 0 = acc + wordOnes (ws.take s) := by
  induction ws with
  | nil => intro acc s hs; simp at hs
  | cons w ws ih =>
    intro acc s hs
    match s with
    | 0 => simp [subCountsFrom, wordOnes_nil]
    | s + 1 =>
      simp only [subCountsFrom, List.getD_cons_succ, List.take_succ_cons, wordOnes_cons]
      rw [ih (acc + popCount w) s (by simpa using hs)]
      omega

/-! ### Trailing-zeros lemmas -/

theorem trailingZeros_spec : ∀ n : Nat, n ≠ 0 →
    n.testBit (trailingZeros n) = true ∧ ∀ j, j < trailingZeros n → n.testBit j = false := by
  intro n
  induction n using Nat.strong_induction_on with
  | _ n ih =>
    intro hn
    rw [trailingZeros_unfold n hn]
    by_cases hodd : n % 2 = 1
    · simp [hodd]
    · have h2 : n / 2 ≠ 0 := by
        intro h
        have := Nat.div_add_mod n 2
        omega
      have hlt : n / 2 < n := Nat.div_lt_self (Nat.pos_of_ne_zero hn) (by omega)
      obtain ⟨h1, h2'⟩ := ih (n / 2) hlt h2
      rw [if_neg hodd]
      constructor
      · rw [Nat.testBit_succ]
        exact h1
      · intro j hj
        match j with
        | 0 => simp [Nat.testBit_zero]; omega
        | j + 1 =>
          rw [Nat.testBit_succ]
          exact h2' j (by omega)

theorem trailingZeros_lt_of_lt {n r : Nat} (hn : n ≠ 0) (h : n < 2 ^ r) :
    trailingZeros n < r := by
  have h1 := (trailingZeros_spec n hn).1
  have h2 : 2 ^ trailingZeros n ≤ n := Nat.testBit_implies_ge h1
  by_contra hc
  push_neg at hc
  have : 2 ^ r ≤ 2 ^ trailingZeros n := Nat.pow_le_pow_right (by omega) hc
  omega

/-! ### Bitwise helper lemmas -/

theorem land_two_pow_eq_zero_iff (x t : Nat) :
    x &&& (2 ^ t) = 0 ↔ x.testBit t = false := by
  constructor
  · intro h
    have hl := Nat.testBit_land x (2 ^ t) t
    rw [h] at hl
    simpa [Nat.testBit_two_pow_self] using hl.symm
  · intro h
    apply Nat.eq_of_testBit_eq
    intro i
    rw [Nat.testBit_land]
    by_cases hit : t = i
    · subst hit
      simp [h]
    · simp [Nat.testBit_two_pow_of_ne hit]

theorem testBit_xor_two_pow (w t i : Nat) :
    (w ^^^ (2 ^ t)).testBit i = if i = t then !(w.testBit i) else w.testBit i := by
  have hx : (w ^^^ 2 ^ t).testBit i = ((w.testBit i).xor ((2 ^ t).testBit i)) :=
    Nat.testBit_xor w (2 ^ t) i
  by_cases hit : i = t
  · subst hit
    simp [hx, Nat.testBit_two_pow_self]
  · have h2 : (2 ^ t).testBit i = false := Nat.testBit_two_pow_of_ne (fun h => hit h.symm)
    simp [hx, h2, hit]

theorem xor_two_pow_lt {w t n : Nat} (hw : w < 2 ^ n) (ht : t < n) :
    w ^^^ (2 ^ t) < 2 ^ n :=
  Nat.xor_lt_two_pow hw (Nat.pow_lt_pow_right (by omega) ht)

/-! ### Counting lemmas about `countP` -/

theorem countP_interval_split (P : List Nat) (a b c : Nat) (hab : a ≤ b) (hbc : b ≤ c) :
    P.countP (fun x => decide (a ≤ x ∧ x < c)) =
      P.countP (fun x => decide (a ≤ x ∧ x < b)) +
        P.countP (fun x => decide (b ≤ x ∧ x < c)) := by
  induction P with
  | nil => rfl
  | cons q P ih =>
    simp only [List.countP_cons, ih, decide_eq_true_eq]
    split_ifs <;> omega

theorem countP_lt_eq_interval (P : List Nat) (c : Nat) :
    P.countP (fun x => decide (x < c)) = P.countP (fun x => decide (0 ≤ x ∧ x < c)) := by
  apply countP_ext
  intro x _
  simp

theorem countP_or_disjoint {α : Type} (l : List α) (p q : α → Bool)
    (h : ∀ x ∈ l, ¬(p x = true ∧ q x = true)) :
    l.countP (fun x => p x || q x) = l.countP p + l.countP q := by
  induction l with
  | nil => rfl
  | cons a l ih =>
    simp only [List.countP_cons, ih (fun x hx => h x (by simp [hx]))]
    have := h a (by simp)
    by_cases hp : p a <;> by_cases hq : q a <;> simp [hp, hq] at this ⊢ <;> omega

theorem countP_range_shift_single (A a : Nat) :
    ∀ m, (List.range m).countP (fun b => decide (A + b = a)) =
      if A ≤ a ∧ a < A + m then 1 else 0 := by
  intro m
  induction m with
  | zero =>
    simp only [List.range_zero, List.countP_nil]
    split_ifs <;> omega
  | succ m ih =>
    rw [List.range_succ, List.countP_append, ih]
    simp only [List.countP_cons, List.countP_nil, decide_eq_true_eq]
    split_ifs <;> omega

theorem countP_interval_eq_range (P : List Nat) (hP : P.Nodup) (A m : Nat) :
    P.countP (fun x => decide (A ≤ x ∧ x < A + m)) =
      (List.range m).countP (fun b => decide ((A + b) ∈ P)) := by
  induction P with
  | nil => simp
  | cons a P ih =>
    rw [List.nodup_cons] at hP
    obtain ⟨ha, hP'⟩ := hP
    rw [List.countP_cons, ih hP']
    have hsplit :
        (List.range m).countP (fun b => decide ((A + b) ∈ a :: P)) =
          (List.range m).countP (fun b => decide (A + b = a)) +
            (List.range m).countP (fun b => decide ((A + b) ∈ P)) := by
      rw [← countP_or_disjoint]
      · apply countP_ext
        intro b _
        simp [List.mem_cons]
      · intro b _
        simp only [decide_eq_true_eq]
        rintro ⟨rfl, hmem⟩
        exact ha hmem
    rw [hsplit, countP_range_shift_single]
    simp only [decide_eq_true_eq]
    split_ifs with h <;> omega

theorem countP_eq_length_of_all (P : List Nat) (p : Nat → Bool) (h : ∀ x ∈ P, p x = true) :
    P.countP p = P.length := List.countP_eq_length.mpr h

/-! ### List access helpers -/

theorem setLastTo_length (l : List Block) (x : Block) (h : l ≠ []) :
    (setLastTo l x).length = l.length := by
  have hpos : 0 < l.length := List.length_pos.mpr h
  simp only [setLastTo, List.length_append, List.length_dropLast, List.length_cons,
    List.length_nil]
  omega

theorem getD_setLastTo_lt (l : List Block) (x d : Block) {k : Nat} (hk : k < l.length - 1) :
    (setLastTo l x).getD k d = l.getD k d := by
  simp only [setLastTo, List.getD_eq_getElem?_getD]
  rw [List.getElem?_append_left (by rw [List.length_dropLast]; omega),
    List.dropLast_eq_take, List.getElem?_take_of_lt hk]

theorem getD_setLastTo_last (l : List Block) (x d : Block) (h : l ≠ []) :
    (setLastTo l x).getD (l.length - 1) d = x := by
  have hpos : 0 < l.length := List.length_pos.mpr h
  simp only [setLastTo, List.getD_eq_getElem?_getD]
  rw [List.getElem?_append_right (by rw [List.length_dropLast])]
  rw [List.length_dropLast, Nat.sub_self]
  rfl

theorem getD_append_lt {α : Type} (l₁ l₂ : List α) (k : Nat) (d : α) (h : k < l₁.length) :
    (l₁ ++ l₂).getD k d = l₁.getD k d := by
  simp only [List.getD_eq_getElem?_getD, List.getElem?_append_left h]

theorem getD_append_replicate {α : Type} (l : List α) (z : α) (m k : Nat) (d : α)
    (h1 : l.length ≤ k) (h2 : k < l.length + m) :
    (l ++ List.replicate m z).getD k d = z := by
  simp only [List.getD_eq_getElem?_getD, List.getElem?_append_right h1,
    List.getElem?_replicate]
  rw [if_pos (by omega)]
  rfl

theorem getD_out_of_range {α : Type} (l : List α) (k : Nat) (d : α) (h : l.length ≤ k) :
    l.getD k d = d := by
  simp [List.getD_eq_getElem?_getD, List.getElem?_eq_none h]

theorem getLast?_eq_some_getD (l : List Block) (h : l ≠ []) :
    l.getLast? = some (l.getD (l.length - 1) zeroBlock) := by
  have hlt : l.length - 1 < l.length := by
    have := List.length_pos.mpr h
    omega
  rw [List.getLast?_eq_getElem?, List.getElem?_eq_getElem hlt]
  simp [List.getD_eq_getElem?_getD, List.getElem?_eq_getElem hlt]

theorem getD_mem {α : Type} (l : List α) {k : Nat} (hk : k < l.length) (d : α) :
    l.getD k d ∈ l := by
  rw [List.getD_eq_getElem?_getD, List.getElem?_eq_getElem hk]
  exact List.getElem_mem hk

theorem getD_of_lt {α : Type} (l : List α) {n : Nat} (h : n < l.length) (d : α) :
    l.getD n d = l[n] := by
  simp [List.getD_eq_getElem?_getD, List.getElem?_eq_getElem h]

/-! ### Zero-block facts -/

theorem zeroBlock_rank_testAt (c li : Nat) :
    ({ zeroBlock with rank := c } : Block).testAt li = false := by
  have hbits : ({ zeroBlock with rank := c } : Block).bits =
      List.replicate SUB_BLOCKS_PER_BLOCK 0 := rfl
  rw [Block.testAt, hbits]
  have : (List.replicate SUB_BLOCKS_PER_BLOCK (0 : Nat)).getD
      (li / BITS_PER_SUB_BLOCK) 0 = 0 := by
    rw [List.getD_eq_getElem?_getD, List.getElem?_replicate]
    split_ifs <;> rfl
  rw [this]
  exact Nat.zero_testBit _

theorem zeroBlock_testAt (li : Nat) : zeroBlock.testAt li = false :=
  zeroBlock_rank_testAt 0 li

theorem subCountsFrom_replicate_zero :
    ∀ n acc, subCountsFrom (List.replicate n 0) acc = (List.replicate n acc, acc) := by
  intro n
  induction n with
  | zero => intro acc; rfl
  | succ n ih =>
    intro acc
    have h0 : popCount 0 = 0 := rfl
    simp [List.replicate_succ, subCountsFrom, h0, ih]

/-- A block whose `sub_blocks` agree with its bits. -/
def subOk (blk : Block) : Prop := blk.sub_blocks = (subCountsFrom blk.bits 0).1

/-- Well-formed field lengths and word bounds. -/
def blockShape (blk : Block) : Prop :=
  blk.bits.length = SUB_BLOCKS_PER_BLOCK ∧ blk.sub_blocks.length = SUB_BLOCKS_PER_BLOCK ∧
    ∀ w ∈ blk.bits, w < 2 ^ BITS_PER_SUB_BLOCK

theorem subOk_zeroBlock_rank (c : Nat) : subOk { zeroBlock with rank := c } := by
  show (List.replicate SUB_BLOCKS_PER_BLOCK 0 : List Nat) =
    (subCountsFrom (List.replicate SUB_BLOCKS_PER_BLOCK 0) 0).1
  rw [subCountsFrom_replicate_zero]

theorem blockShape_zeroBlock_rank (c : Nat) : blockShape { zeroBlock with rank := c } := by
  refine ⟨by simp [zeroBlock], by simp [zeroBlock], ?_⟩
  intro w hw
  have : w = 0 := List.eq_of_mem_replicate hw
  subst this
  exact Nat.pos_pow_of_pos _ (by omega)

/-! ### Build invariants -/

/-- Number of blocks the builder holds after pushing `P`. -/
def lenSpec (P : List Nat) : Nat :=
  match P.getLast? with
  | some x => x / BITS_PER_BLOCK + 1
  | none => 0

theorem lenSpec_nil : lenSpec [] = 0 := rfl

theorem lenSpec_eq_zero_iff (P : List Nat) : lenSpec P = 0 ↔ P = [] := by
  unfold lenSpec
  cases h : P.getLast? with
  | none => simp [List.getLast?_eq_none_iff.mp h]
  | some x =>
    simp only []
    constructor
    · intro hcon
      exact absurd hcon (Nat.succ_ne_zero _)
    · intro hP
      subst hP
      simp at h

/-- The invariant tying the builder's block list to the positions pushed so
far, except for the last block's `sub_blocks` (finalized lazily). -/
structure CoreInv (P : List Nat) (bs : List Block) : Prop where
  nodup : P.Nodup
  shape : ∀ blk ∈ bs, blockShape blk
  len_eq : bs.length = lenSpec P
  mem : ∀ q, memAt bs q = decide (q ∈ P)
  ranks : ∀ k, k < bs.length →
    (bs.getD k zeroBlock).rank = P.countP (fun x => decide (x < k * BITS_PER_BLOCK))

/-- Invariant during building: all blocks but the last are finalized. -/
def BuildInv (P : List Nat) (bs : List Block) : Prop :=
  CoreInv P bs ∧ ∀ k, k + 1 < bs.length → subOk (bs.getD k zeroBlock)

/-- Invariant after `finish`: every block is finalized. -/
def FinInv (P : List Nat) (bs : List Block) : Prop :=
  CoreInv P bs ∧ ∀ k, k < bs.length → subOk (bs.getD k zeroBlock)

theorem CoreInv.block_lt {P : List Nat} {bs : List Block} (c : CoreInv P bs) {x : Nat}
    (hx : x ∈ P) : x / BITS_PER_BLOCK < bs.length := by
  by_contra h
  push_neg at h
  have hm := c.mem x
  rw [memAt, getD_out_of_range bs _ _ h, zeroBlock_testAt] at hm
  simp [hx] at hm

theorem CoreInv.elem_lt {P : List Nat} {bs : List Block} (c : CoreInv P bs) {x : Nat}
    (hx : x ∈ P) : x < bs.length * BITS_PER_BLOCK :=
  (Nat.div_lt_iff_lt_mul (by rw [BITS_PER_BLOCK]; omega)).mp (c.block_lt hx)

/-! ### Counting within blocks -/

theorem countP_congr_iff (P : List Nat) (p q : Nat → Prop) [DecidablePred p]
    [DecidablePred q] (h : ∀ x, p x ↔ q x) :
    P.countP (fun x => decide (p x)) = P.countP (fun x => decide (q x)) :=
  countP_ext _ _ _ (fun x _ => decide_eq_decide.mpr (h x))

theorem memAt_block_local {bs : List Block} {k li : Nat} (hli : li < BITS_PER_BLOCK) :
    memAt bs (k * BITS_PER_BLOCK + li) = (bs.getD k zeroBlock).testAt li := by
  have hli' : li < 16384 := hli
  have hdiv : (k * BITS_PER_BLOCK + li) / BITS_PER_BLOCK = k := by
    show (k * 16384 + li) / 16384 = k
    omega
  have hmod : (k * BITS_PER_BLOCK + li) % BITS_PER_BLOCK = li := by
    show (k * 16384 + li) % 16384 = li
    omega
  rw [memAt, hdiv, hmod]

theorem testAt_local {blk : Block} {s b : Nat} (hb : b < BITS_PER_SUB_BLOCK) :
    blk.testAt (s * BITS_PER_SUB_BLOCK + b) =
      (blk.bits.getD s 0).testBit ((BITS_PER_SUB_BLOCK - 1) - b) := by
  have hb' : b < 128 := hb
  have hdiv : (s * BITS_PER_SUB_BLOCK + b) / BITS_PER_SUB_BLOCK = s := by
    show (s * 128 + b) / 128 = s
    omega
  have hmod : (s * BITS_PER_SUB_BLOCK + b) % BITS_PER_SUB_BLOCK = b := by
    show (s * 128 + b) % 128 = b
    omega
  rw [Block.testAt, hdiv, hmod]

/-- The words `0..s` of block `k` count exactly the elements of `P` in the
corresponding range of positions. -/
theorem count_block_prefix {P : List Nat} {bs : List Block} (c : CoreInv P bs) {k : Nat}
    (hk : k < bs.length) (s : Nat) (hs : s ≤ SUB_BLOCKS_PER_BLOCK) :
    wordOnes ((bs.getD k zeroBlock).bits.take s) =
      P.countP (fun x => decide (k * BITS_PER_BLOCK ≤ x ∧
        x < k * BITS_PER_BLOCK + s * BITS_PER_SUB_BLOCK)) := by
  have hshape := c.shape (bs.getD k zeroBlock) (getD_mem bs hk zeroBlock)
  obtain ⟨hblen, _, hwords⟩ := hshape
  have htlen : ((bs.getD k zeroBlock).bits.take s).length = s := by
    rw [List.length_take, hblen]
    omega
  have hall : ∀ w ∈ (bs.getD k zeroBlock).bits.take s, w < 2 ^ 128 := by
    intro w hw
    exact hwords w (List.mem_of_mem_take hw)
  have hmain := wordOnes_countP _ hall
  rw [htlen] at hmain
  rw [← hmain]
  rw [countP_ext _ _ (fun li => memAt bs (k * BITS_PER_BLOCK + li))]
  · rw [countP_ext _ _ (fun li => decide ((k * BITS_PER_BLOCK + li) ∈ P))
      (fun li _ => c.mem _)]
    rw [← countP_interval_eq_range P c.nodup]
    apply countP_congr_iff
    intro x
    exact Iff.rfl
  · intro li hli
    rw [List.mem_range] at hli
    have hof : li / 128 < s := (Nat.div_lt_iff_lt_mul (by omega)).mpr hli
    have hgetD : ((bs.getD k zeroBlock).bits.take s).getD (li / 128) 0 =
        (bs.getD k zeroBlock).bits.getD (li / 128) 0 := by
      simp only [List.getD_eq_getElem?_getD]
      rw [List.getElem?_take_of_lt hof]
    rw [hgetD]
    have hli' : li < BITS_PER_BLOCK := by
      have hs' : s * 128 ≤ 16384 := by
        have : (s : Nat) ≤ 128 := hs
        omega
      show li < 16384
      omega
    rw [memAt_block_local hli']
    rfl

theorem count_block_full {P : List Nat} {bs : List Block} (c : CoreInv P bs) {k : Nat}
    (hk : k < bs.length) :
    wordOnes (bs.getD k zeroBlock).bits =
      P.countP (fun x => decide (k * BITS_PER_BLOCK ≤ x ∧ x < (k + 1) * BITS_PER_BLOCK)) := by
  have hshape := c.shape (bs.getD k zeroBlock) (getD_mem bs hk zeroBlock)
  have htake : (bs.getD k zeroBlock).bits.take SUB_BLOCKS_PER_BLOCK =
      (bs.getD k zeroBlock).bits := List.take_of_length_le (le_of_eq hshape.1)
  have := count_block_prefix c hk SUB_BLOCKS_PER_BLOCK le_rfl
  rw [htake] at this
  rw [this]
  apply countP_congr_iff
  intro x
  show k * BITS_PER_BLOCK ≤ x ∧ x < k * BITS_PER_BLOCK + 16384 ↔
    k * BITS_PER_BLOCK ≤ x ∧ x < (k + 1) * BITS_PER_BLOCK
  rw [BITS_PER_BLOCK]
  omega

theorem rank_add_full {P : List Nat} {bs : List Block} (c : CoreInv P bs) {k : Nat}
    (hk : k < bs.length) :
    (bs.getD k zeroBlock).rank + wordOnes (bs.getD k zeroBlock).bits =
      P.countP (fun x => decide (x < (k + 1) * BITS_PER_BLOCK)) := by
  rw [c.ranks k hk, count_block_full c hk]
  rw [countP_lt_eq_interval P ((k + 1) * BITS_PER_BLOCK),
    countP_interval_split P 0 (k * BITS_PER_BLOCK) ((k + 1) * BITS_PER_BLOCK)
      (by omega) (by exact Nat.mul_le_mul_right _ (by omega))]
  rw [← countP_lt_eq_interval]

theorem last_total {P : List Nat} {bs : List Block} (c : CoreInv P bs) (h : bs ≠ []) :
    (bs.getD (bs.length - 1) zeroBlock).rank +
      wordOnes (bs.getD (bs.length - 1) zeroBlock).bits = P.length := by
  have hpos : 0 < bs.length := List.length_pos.mpr h
  rw [rank_add_full c (k := bs.length - 1) (by omega)]
  apply countP_eq_length_of_all
  intro x hx
  have := c.elem_lt hx
  simp only [decide_eq_true_eq]
  have hk1 : bs.length - 1 + 1 = bs.length := by omega
  rw [hk1]
  exact this

/-! ### `finish_last_block` preserves the invariant and finalizes the last block -/

theorem finish_last_block_spec {P : List Nat} {bs : List Block} (hc : CoreInv P bs)
    (hsub : ∀ k, k + 1 < bs.length → subOk (bs.getD k zeroBlock)) :
    FinInv P (BitRankBuilder.finish_last_block ⟨bs⟩).1.blocks ∧
      (BitRankBuilder.finish_last_block ⟨bs⟩).2 = P.length ∧
      (BitRankBuilder.finish_last_block ⟨bs⟩).1.blocks.length = bs.length := by
  cases hl : bs.getLast? with
  | none =>
    have hnil : bs = [] := List.getLast?_eq_none_iff.mp hl
    subst hnil
    have hfin : BitRankBuilder.finish_last_block ⟨([] : List Block)⟩ = (⟨[]⟩, 0) := rfl
    have hP : P = [] := by
      have h0 := hc.len_eq
      simp only [List.length_nil] at h0
      exact (lenSpec_eq_zero_iff P).mp h0.symm
    rw [hfin]
    exact ⟨⟨hc, fun k hk => absurd hk (by simp)⟩, by simp [hP], rfl⟩
  | some block =>
    have hne : bs ≠ [] := by
      intro h
      subst h
      simp at hl
    have hpos : 0 < bs.length := List.length_pos.mpr hne
    have hblock : block = bs.getD (bs.length - 1) zeroBlock := by
      have := (getLast?_eq_some_getD bs hne).symm.trans hl
      exact (Option.some_inj.mp this).symm
    have hfin : BitRankBuilder.finish_last_block ⟨bs⟩ =
        (⟨setLastTo bs { block with sub_blocks := (subCountsFrom block.bits 0).1 }⟩,
          block.rank + (subCountsFrom block.bits 0).2) := by
      unfold BitRankBuilder.finish_last_block
      simp only [hl]
    set nb : Block := { block with sub_blocks := (subCountsFrom block.bits 0).1 } with hnb
    rw [hfin]
    show FinInv P (setLastTo bs nb) ∧
      block.rank + (subCountsFrom block.bits 0).2 = P.length ∧
      (setLastTo bs nb).length = bs.length
    have hmemblk : block ∈ bs := by
      rw [hblock]
      exact getD_mem bs (by omega) zeroBlock
    have hshapeblk := hc.shape block hmemblk
    have hlen : (setLastTo bs nb).length = bs.length := setLastTo_length bs nb hne
    have hgetD : ∀ k, (setLastTo bs nb).getD k zeroBlock =
        (if k < bs.length - 1 then bs.getD k zeroBlock
          else if k = bs.length - 1 then nb else zeroBlock) := by
      intro k
      by_cases h1 : k < bs.length - 1
      · rw [getD_setLastTo_lt bs nb zeroBlock h1, if_pos h1]
      · by_cases h2 : k = bs.length - 1
        · rw [h2, getD_setLastTo_last bs nb zeroBlock hne, if_neg (by omega), if_pos rfl]
        · rw [getD_out_of_range _ _ _ (by rw [hlen]; omega), if_neg h1, if_neg h2]
    have hcore : CoreInv P (setLastTo bs nb) := by
      refine ⟨hc.nodup, ?_, ?_, ?_, ?_⟩
      · intro blk hmem
        rcases List.mem_append.mp hmem with h | h
        · exact hc.shape blk (List.dropLast_subset bs h)
        · have hblk : blk = nb := by simpa using h
          subst hblk
          refine ⟨hshapeblk.1, ?_, hshapeblk.2.2⟩
          show (subCountsFrom block.bits 0).1.length = SUB_BLOCKS_PER_BLOCK
          rw [subCountsFrom_fst_length]
          exact hshapeblk.1
      · rw [hlen]
        exact hc.len_eq
      · intro q
        rw [← hc.mem q]
        unfold memAt
        rw [hgetD]
        by_cases h1 : q / BITS_PER_BLOCK < bs.length - 1
        · rw [if_pos h1]
        · by_cases h2 : q / BITS_PER_BLOCK = bs.length - 1
          · rw [if_neg h1, if_pos h2, h2]
            have : nb.testAt (q % BITS_PER_BLOCK) = block.testAt (q % BITS_PER_BLOCK) := rfl
            rw [this, hblock]
          · rw [if_neg h1, if_neg h2,
              getD_out_of_range bs _ zeroBlock (by omega)]
      · intro k hk
        rw [hlen] at hk
        rw [hgetD]
        by_cases h1 : k < bs.length - 1
        · rw [if_pos h1]
          exact hc.ranks k hk
        · have h2 : k = bs.length - 1 := by omega
          rw [if_neg h1, if_pos h2, h2]
          have : nb.rank = block.rank := rfl
          rw [this, hblock]
          exact hc.ranks (bs.length - 1) (by omega)
    refine ⟨⟨hcore, ?_⟩, ?_, hlen⟩
    · intro k hk
      rw [hlen] at hk
      rw [hgetD]
      by_cases h1 : k < bs.length - 1
      · rw [if_pos h1]
        exact hsub k (by omega)
      · have h2 : k = bs.length - 1 := by omega
        rw [if_neg h1, if_pos h2]
        show nb.sub_blocks = (subCountsFrom nb.bits 0).1
        rfl
    · rw [subCountsFrom_snd, Nat.zero_add, hblock]
      exact last_total hc hne

/-! ### `Block.set` specification -/

theorem set_spec {blk nb : Block} {li : Nat} (hshape : blockShape blk)
    (hset : blk.set li = some nb) :
    li < BITS_PER_BLOCK ∧ nb.rank = blk.rank ∧ nb.sub_blocks = blk.sub_blocks ∧
      blockShape nb ∧
      ∀ lj, lj < BITS_PER_BLOCK →
        nb.testAt lj = (blk.testAt lj || decide (lj = li)) := by
  rw [Block.set_eq] at hset
  by_cases hli : li < BITS_PER_BLOCK
  · rw [if_pos hli] at hset
    have hli' : li < 16384 := hli
    have hchunklt : li / BITS_PER_SUB_BLOCK < blk.bits.length := by
      rw [hshape.1]
      show li / 128 < 128
      omega
    have hw : blk.bits.getD (li / BITS_PER_SUB_BLOCK) 0 < 2 ^ 128 :=
      hshape.2.2 _ (getD_mem blk.bits hchunklt 0)
    by_cases hguard : blk.bits.getD (li / BITS_PER_SUB_BLOCK) 0 &&&
        2 ^ ((BITS_PER_SUB_BLOCK - 1) - li % BITS_PER_SUB_BLOCK) = 0
    · rw [if_pos hguard] at hset
      have hnb : nb = { blk with bits := (blk.bits.set (li / BITS_PER_SUB_BLOCK)
          (blk.bits.getD (li / BITS_PER_SUB_BLOCK) 0 ^^^
            2 ^ ((BITS_PER_SUB_BLOCK - 1) - li % BITS_PER_SUB_BLOCK))) } :=
        (Option.some_inj.mp hset).symm
      subst hnb
      have hbitsD : ∀ cj, (blk.bits.set (li / BITS_PER_SUB_BLOCK)
          (blk.bits.getD (li / BITS_PER_SUB_BLOCK) 0 ^^^
            2 ^ ((BITS_PER_SUB_BLOCK - 1) - li % BITS_PER_SUB_BLOCK))).getD cj 0 =
          if li / BITS_PER_SUB_BLOCK = cj then
            blk.bits.getD (li / BITS_PER_SUB_BLOCK) 0 ^^^
              2 ^ ((BITS_PER_SUB_BLOCK - 1) - li % BITS_PER_SUB_BLOCK)
          else blk.bits.getD cj 0 := by
        intro cj
        simp only [List.getD_eq_getElem?_getD, List.getElem?_set]
        by_cases h : li / BITS_PER_SUB_BLOCK = cj
        · subst h
          simp [hchunklt]
        · simp [h]
      refine ⟨hli, rfl, rfl, ?_, ?_⟩
      · refine ⟨by simpa using hshape.1, hshape.2.1, ?_⟩
        intro w hwmem
        show w < 2 ^ 128
        rcases List.mem_or_eq_of_mem_set hwmem with h | h
        · exact hshape.2.2 w h
        · subst h
          apply xor_two_pow_lt hw
          show 128 - 1 - li % 128 < 128
          omega
      · intro lj hlj
        have hlj' : lj < 16384 := hlj
        show ((blk.bits.set _ _).getD (lj / BITS_PER_SUB_BLOCK) 0).testBit
            ((BITS_PER_SUB_BLOCK - 1) - lj % BITS_PER_SUB_BLOCK) = _
        rw [hbitsD]
        by_cases hcj : li / BITS_PER_SUB_BLOCK = lj / BITS_PER_SUB_BLOCK
        · rw [if_pos hcj, testBit_xor_two_pow]
          have hiff : ((BITS_PER_SUB_BLOCK - 1) - lj % BITS_PER_SUB_BLOCK =
              (BITS_PER_SUB_BLOCK - 1) - li % BITS_PER_SUB_BLOCK) ↔
              lj % BITS_PER_SUB_BLOCK = li % BITS_PER_SUB_BLOCK := by
            show (128 - 1 - lj % 128 = 128 - 1 - li % 128) ↔ lj % 128 = li % 128
            omega
          by_cases hmod : lj % BITS_PER_SUB_BLOCK = li % BITS_PER_SUB_BLOCK
          · have heq : lj = li := by
              have hdd : li / BITS_PER_SUB_BLOCK = lj / BITS_PER_SUB_BLOCK := hcj
              have h1 : li / 128 = lj / 128 := hdd
              have h2 : lj % 128 = li % 128 := hmod
              omega
            subst heq
            rw [if_pos (hiff.mpr hmod)]
            have hbit : (blk.bits.getD (lj / BITS_PER_SUB_BLOCK) 0).testBit
                ((BITS_PER_SUB_BLOCK - 1) - lj % BITS_PER_SUB_BLOCK) = false :=
              (land_two_pow_eq_zero_iff _ _).mp hguard
            rw [hbit]
            simp
          · rw [if_neg (fun h => hmod (hiff.mp h))]
            have hne : lj ≠ li := fun h => hmod (by rw [h])
            have hTA : blk.testAt lj =
                (blk.bits.getD (li / BITS_PER_SUB_BLOCK) 0).testBit
                  ((BITS_PER_SUB_BLOCK - 1) - lj % BITS_PER_SUB_BLOCK) := by
              rw [Block.testAt, hcj]
            rw [← hTA]
            simp [hne]
        · rw [if_neg hcj]
          have hne : lj ≠ li := by
            intro h
            exact hcj (by rw [h])
          have hTA : blk.testAt lj =
              (blk.bits.getD (lj / BITS_PER_SUB_BLOCK) 0).testBit
                ((BITS_PER_SUB_BLOCK - 1) - lj % BITS_PER_SUB_BLOCK) := rfl
          rw [← hTA]
          simp [hne]
    · rw [if_neg hguard] at hset
      simp at hset
  · rw [if_neg hli] at hset
    simp at hset

/-! ### `push` preserves the invariant -/

theorem pushBlocks_pos {b : BitRankBuilder} {p : Nat}
    (h : b.blocks.length ≤ p / BITS_PER_BLOCK) :
    b.pushBlocks p =
      b.finish_last_block.1.blocks ++
        List.replicate (p / BITS_PER_BLOCK + 1 - b.finish_last_block.1.blocks.length)
          { zeroBlock with rank := b.finish_last_block.2 } := by
  unfold BitRankBuilder.pushBlocks
  exact if_pos h

theorem pushBlocks_neg {b : BitRankBuilder} {p : Nat}
    (h : ¬b.blocks.length ≤ p / BITS_PER_BLOCK) :
    b.pushBlocks p = b.blocks := by
  unfold BitRankBuilder.pushBlocks
  exact if_neg h

/-- State of the block list after the extension step of a successful push. -/
structure PreInv (P : List Nat) (p : Nat) (bl : List Block) : Prop where
  length_eq : bl.length = p / BITS_PER_BLOCK + 1
  shape : ∀ blk ∈ bl, blockShape blk
  mem : ∀ q, memAt bl q = decide (q ∈ P)
  ranks : ∀ k, k < bl.length →
    (bl.getD k zeroBlock).rank = P.countP (fun x => decide (x < k * BITS_PER_BLOCK))
  subs : ∀ k, k + 1 < bl.length → subOk (bl.getD k zeroBlock)

theorem preInv_extend {P : List Nat} {fb : List Block} {p : Nat}
    (hcf : CoreInv P fb) (hsubf : ∀ k, k < fb.length → subOk (fb.getD k zeroBlock))
    (hext : fb.length ≤ p / BITS_PER_BLOCK) :
    PreInv P p (fb ++ List.replicate (p / BITS_PER_BLOCK + 1 - fb.length)
      { zeroBlock with rank := P.length }) := by
  have hlen : (fb ++ List.replicate (p / BITS_PER_BLOCK + 1 - fb.length)
      { zeroBlock with rank := P.length }).length = p / BITS_PER_BLOCK + 1 := by
    rw [List.length_append, List.length_replicate]
    omega
  have hgetD : ∀ k, (fb ++ List.replicate (p / BITS_PER_BLOCK + 1 - fb.length)
      { zeroBlock with rank := P.length }).getD k zeroBlock =
      if k < fb.length then fb.getD k zeroBlock
      else if k < p / BITS_PER_BLOCK + 1 then { zeroBlock with rank := P.length }
      else zeroBlock := by
    intro k
    by_cases h1 : k < fb.length
    · rw [getD_append_lt _ _ _ _ h1, if_pos h1]
    · by_cases h2 : k < p / BITS_PER_BLOCK + 1
      · rw [getD_append_replicate _ _ _ _ _ (by omega) (by omega), if_neg h1, if_pos h2]
      · rw [getD_out_of_range _ _ _ (by rw [hlen]; omega), if_neg h1, if_neg h2]
  refine ⟨hlen, ?_, ?_, ?_, ?_⟩
  · intro blk hmem
    rcases List.mem_append.mp hmem with h | h
    · exact hcf.shape blk h
    · rw [List.eq_of_mem_replicate h]
      exact blockShape_zeroBlock_rank P.length
  · intro q
    rw [memAt, hgetD]
    by_cases h1 : q / BITS_PER_BLOCK < fb.length
    · rw [if_pos h1]
      exact hcf.mem q
    · have hq : q ∉ P := fun hq => h1 (hcf.block_lt hq)
      by_cases h2 : q / BITS_PER_BLOCK < p / BITS_PER_BLOCK + 1
      · rw [if_neg h1, if_pos h2, zeroBlock_rank_testAt]
        simp [hq]
      · rw [if_neg h1, if_neg h2, zeroBlock_testAt]
        simp [hq]
  · intro k hk
    rw [hlen] at hk
    rw [hgetD]
    by_cases h1 : k < fb.length
    · rw [if_pos h1]
      exact hcf.ranks k h1
    · rw [if_neg h1, if_pos hk]
      show P.length = P.countP fun x => decide (x < k * BITS_PER_BLOCK)
      symm
      apply countP_eq_length_of_all
      intro x hx
      simp only [decide_eq_true_eq]
      have h2 := hcf.elem_lt hx
      have h3 : fb.length * BITS_PER_BLOCK ≤ k * BITS_PER_BLOCK :=
        Nat.mul_le_mul_right _ (by omega)
      omega
  · intro k hk
    rw [hlen] at hk
    rw [hgetD]
    by_cases h1 : k < fb.length
    · rw [if_pos h1]
      exact hsubf k h1
    · rw [if_neg h1, if_pos (by omega)]
      exact subOk_zeroBlock_rank P.length

theorem pushBlocks_spec {P : List Nat} {bs : List Block} {p : Nat}
    (hb : BuildInv P bs) (hg : bs.length ≤ p / BITS_PER_BLOCK + 1) :
    PreInv P p (BitRankBuilder.pushBlocks ⟨bs⟩ p) := by
  obtain ⟨hc, hsub⟩ := hb
  by_cases hext : bs.length ≤ p / BITS_PER_BLOCK
  · obtain ⟨⟨hcf, hsubf⟩, hcurr, hflen⟩ := finish_last_block_spec hc hsub
    rw [pushBlocks_pos hext, hcurr]
    exact preInv_extend hcf hsubf (by rw [hflen]; exact hext)
  · rw [pushBlocks_neg hext]
    show PreInv P p bs
    have hlt : p / BITS_PER_BLOCK < bs.length := Nat.not_le.mp hext
    exact ⟨Nat.le_antisymm hg hlt, hc.shape, hc.mem, hc.ranks, fun k hk => hsub k hk⟩

theorem push_spec {P : List Nat} {bs : List Block} {p : Nat} {out : BitRankBuilder}
    (hb : BuildInv P bs) (hgt : ∀ x ∈ P, x < p)
    (hpush : BitRankBuilder.push ⟨bs⟩ p = some out) :
    BuildInv (P ++ [p]) out.blocks := by
  unfold BitRankBuilder.push at hpush
  by_cases hg : bs.length ≤ p / BITS_PER_BLOCK + 1
  swap
  · rw [if_neg hg] at hpush
    cases hpush
  rw [if_pos hg] at hpush
  have hpre := pushBlocks_spec hb hg
  generalize hbl : BitRankBuilder.pushBlocks ⟨bs⟩ p = bl at hpush hpre
  have hblpos : 0 < bl.length := by
    rw [hpre.length_eq]
    exact Nat.succ_pos _
  have hblne : bl ≠ [] := by
    intro h
    rw [h] at hblpos
    simp at hblpos
  rw [getLast?_eq_some_getD bl hblne, Option.some_bind] at hpush
  obtain ⟨nb, hset, hout⟩ := Option.map_eq_some'.mp hpush
  have hshape_last : blockShape (bl.getD (bl.length - 1) zeroBlock) :=
    hpre.shape _ (getD_mem bl (by omega) zeroBlock)
  obtain ⟨hplt, hnbrank, hnbsub, hnbshape, hnbtest⟩ := set_spec hshape_last hset
  subst hout
  show BuildInv (P ++ [p]) (setLastTo bl nb)
  have hbid : bl.length - 1 = p / BITS_PER_BLOCK := by
    rw [hpre.length_eq]
    exact Nat.succ_sub_one _
  have hlen' : (setLastTo bl nb).length = bl.length := setLastTo_length bl nb hblne
  have hgetD : ∀ k, (setLastTo bl nb).getD k zeroBlock =
      if k < p / BITS_PER_BLOCK then bl.getD k zeroBlock
      else if k = p / BITS_PER_BLOCK then nb else zeroBlock := by
    intro k
    by_cases h1 : k < p / BITS_PER_BLOCK
    · rw [getD_setLastTo_lt bl nb zeroBlock (by rw [hbid]; exact h1), if_pos h1]
    · by_cases h2 : k = p / BITS_PER_BLOCK
      · rw [if_neg h1, if_pos h2, h2, ← hbid]
        exact getD_setLastTo_last bl nb zeroBlock hblne
      · rw [getD_out_of_range _ _ _ (by rw [hlen', hpre.length_eq]; omega),
          if_neg h1, if_neg h2]
  have hpnotin : p ∉ P := fun hp => absurd (hgt p hp) (lt_irrefl p)
  have hpB : p / BITS_PER_BLOCK * BITS_PER_BLOCK ≤ p := Nat.div_mul_le_self p _
  have hmemP : ∀ q, q ∉ P → q / BITS_PER_BLOCK ≥ bl.length → True := fun _ _ _ => trivial
  have hnotinP_of_far : ∀ q, bl.length ≤ q / BITS_PER_BLOCK → q ∉ P := by
    intro q hq hmem
    have h1 := hpre.mem q
    rw [memAt, getD_out_of_range _ _ _ hq, zeroBlock_testAt] at h1
    simp [hmem] at h1
  constructor
  · refine ⟨?_, ?_, ?_, ?_, ?_⟩
    · refine List.Nodup.append hb.1.nodup (List.nodup_singleton p) ?_
      intro a ha hamem
      rw [List.mem_singleton] at hamem
      subst hamem
      exact hpnotin ha
    · intro blk hmem
      rcases List.mem_append.mp hmem with h | h
      · exact hpre.shape blk (List.dropLast_subset bl h)
      · have : blk = nb := by simpa using h
        subst this
        exact hnbshape
    · rw [hlen', hpre.length_eq]
      unfold lenSpec
      rw [List.getLast?_concat]
    · intro q
      have hq16 : q % BITS_PER_BLOCK < BITS_PER_BLOCK := by
        show q % 16384 < 16384
        omega
      have hmemiff : (q ∈ P ++ [p]) ↔ q ∈ P ∨ q = p := by
        simp [List.mem_append]
      rw [memAt, hgetD]
      by_cases h1 : q / BITS_PER_BLOCK < p / BITS_PER_BLOCK
      · rw [if_pos h1]
        have hqp : q ≠ p := by
          intro h
          subst h
          omega
        have : memAt bl q = (bl.getD (q / BITS_PER_BLOCK) zeroBlock).testAt
            (q % BITS_PER_BLOCK) := rfl
        rw [← this, hpre.mem q]
        rw [decide_eq_decide.mpr (show (q ∈ P) ↔ (q ∈ P ++ [p]) by
          rw [hmemiff]
          constructor
          · exact Or.inl
          · rintro (h | h)
            · exact h
            · exact absurd h hqp)]
      · by_cases h2 : q / BITS_PER_BLOCK = p / BITS_PER_BLOCK
        · rw [if_neg h1, if_pos h2]
          rw [hnbtest _ hq16]
          have hlast_eq : (bl.getD (bl.length - 1) zeroBlock).testAt (q % BITS_PER_BLOCK) =
              memAt bl q := by
            rw [memAt, h2, hbid]
          rw [hlast_eq, hpre.mem q]
          have hmodiff : q % BITS_PER_BLOCK = p % BITS_PER_BLOCK ↔ q = p := by
            constructor
            · intro hm
              have h2l : q / 16384 = p / 16384 := h2
              have hml : q % 16384 = p % 16384 := hm
              omega
            · intro h
              rw [h]
          by_cases hd : q ∈ P <;> by_cases he : q = p <;>
            simp [hd, he, hmemiff, hmodiff]
        · rw [if_neg h1, if_neg h2, zeroBlock_testAt]
          have hfar : bl.length ≤ q / BITS_PER_BLOCK := by
            rw [hpre.length_eq]
            omega
          have hq1 : q ∉ P := hnotinP_of_far q hfar
          have hq2 : q ≠ p := by
            intro h
            subst h
            exact h2 rfl
          simp [hq1, hq2, hmemiff]
    · intro k hk
      rw [hlen', hpre.length_eq] at hk
      have hcount : (P ++ [p]).countP (fun x => decide (x < k * BITS_PER_BLOCK)) =
          P.countP (fun x => decide (x < k * BITS_PER_BLOCK)) := by
        rw [List.countP_append, List.countP_cons, List.countP_nil]
        have hpk : ¬(p < k * BITS_PER_BLOCK) := by
          have : k * BITS_PER_BLOCK ≤ p / BITS_PER_BLOCK * BITS_PER_BLOCK :=
            Nat.mul_le_mul_right _ (by omega)
          omega
        simp [hpk]
      rw [hcount, hgetD]
      by_cases h1 : k < p / BITS_PER_BLOCK
      · rw [if_pos h1]
        exact hpre.ranks k (by rw [hpre.length_eq]; omega)
      · have h2 : k = p / BITS_PER_BLOCK := by omega
        rw [if_neg h1, if_pos h2, hnbrank, hbid, h2]
        exact hpre.ranks _ (by rw [hpre.length_eq]; omega)
  · intro k hk
    rw [hlen', hpre.length_eq] at hk
    rw [hgetD, if_pos (by omega)]
    exact hpre.subs k (by rw [hpre.length_eq]; omega)

/-! ### Building from a strictly increasing list -/

theorem buildInv_nil : BuildInv [] [] := by
  refine ⟨⟨List.nodup_nil, ?_, rfl, ?_, ?_⟩, ?_⟩
  · intro blk hmem
    simp at hmem
  · intro q
    rw [memAt, getD_out_of_range _ _ _ (by simp), zeroBlock_testAt]
    simp
  · intro k hk
    simp at hk
  · intro k hk
    simp at hk

theorem foldlM_inv :
    ∀ (rest P : List Nat) (b : BitRankBuilder), BuildInv P b.blocks →
      List.Pairwise (· < ·) (P ++ rest) →
      ∀ {out : BitRankBuilder}, rest.foldlM BitRankBuilder.push b = some out →
        BuildInv (P ++ rest) out.blocks := by
  intro rest
  induction rest with
  | nil =>
    intro P b hb _ out hout
    simp only [List.foldlM_nil] at hout
    cases hout
    simpa using hb
  | cons r rest ih =>
    intro P b hb hpw out hout
    rw [List.foldlM_cons] at hout
    cases hpush : BitRankBuilder.push b r with
    | none =>
      rw [hpush] at hout
      simp at hout
    | some b1 =>
      rw [hpush] at hout
      simp at hout
      have hgt : ∀ x ∈ P, x < r :=
        fun x hx => (List.pairwise_append.mp hpw).2.2 x hx r (by simp)
      have hb1 : BuildInv (P ++ [r]) b1.blocks := push_spec hb hgt hpush
      have hpw' : List.Pairwise (· < ·) ((P ++ [r]) ++ rest) := by
        rw [List.append_assoc]
        simpa using hpw
      have hres := ih (P ++ [r]) b1 hb1 hpw' hout
      rwa [List.append_assoc] at hres

theorem finish_fin {P : List Nat} {b : BitRankBuilder} (hb : BuildInv P b.blocks) :
    FinInv P b.finish.blocks := by
  obtain ⟨hfininv, _, _⟩ := finish_last_block_spec hb.1 hb.2
  exact hfininv

theorem bitrank_fin {P : List Nat} (hP : List.Pairwise (· < ·) P) {br : BitRank}
    (hbr : bitrank P = some br) : FinInv P br.blocks := by
  unfold bitrank at hbr
  obtain ⟨bldr, hfold, hfin⟩ := Option.map_eq_some'.mp hbr
  have hb : BuildInv P bldr.blocks := by
    have h0 := foldlM_inv P [] BitRankBuilder.new buildInv_nil (by simpa using hP) hfold
    simpa using h0
  rw [← hfin]
  exact finish_fin hb

/-! ### Query lemmas -/

/-- The bits of the queried sub-block strictly before the local index
(the `masked` value inside `Block::rank_select`). -/
def maskedBits (b : Block) (local_idx : Nat) : Nat :=
  if local_idx % BITS_PER_SUB_BLOCK = 0 then 0
  else (b.bits.getD (local_idx / BITS_PER_SUB_BLOCK) 0) >>>
    (BITS_PER_SUB_BLOCK - local_idx % BITS_PER_SUB_BLOCK)

theorem Block.rank_select_eq (b : Block) (local_idx : Nat) :
    b.rank_select local_idx =
      (b.rank + b.sub_blocks.getD (local_idx / BITS_PER_SUB_BLOCK) 0 +
         popCount (maskedBits b local_idx),
       if maskedBits b local_idx = 0 then none
       else some (local_idx - trailingZeros (maskedBits b local_idx) - 1)) := rfl

theorem maskedBits_eq {b : Block} {li : Nat}
    (hw : b.bits.getD (li / BITS_PER_SUB_BLOCK) 0 < 2 ^ BITS_PER_SUB_BLOCK) :
    maskedBits b li =
      (b.bits.getD (li / BITS_PER_SUB_BLOCK) 0) >>> (BITS_PER_SUB_BLOCK - li % BITS_PER_SUB_BLOCK) := by
  unfold maskedBits
  by_cases h : li % BITS_PER_SUB_BLOCK = 0
  · rw [if_pos h, h, Nat.sub_zero, Nat.shiftRight_eq_div_pow]
    exact (Nat.div_eq_of_lt hw).symm
  · rw [if_neg h]

theorem memAt_testBit {P : List Nat} {bs : List Block} (c : CoreInv P bs) {k s b : Nat}
    (hs : s < SUB_BLOCKS_PER_BLOCK) (hb : b < BITS_PER_SUB_BLOCK) :
    ((bs.getD k zeroBlock).bits.getD s 0).testBit ((BITS_PER_SUB_BLOCK - 1) - b) =
      decide ((k * BITS_PER_BLOCK + s * BITS_PER_SUB_BLOCK + b) ∈ P) := by
  have hli : s * BITS_PER_SUB_BLOCK + b < BITS_PER_BLOCK := by
    have hs' : s < 128 := hs
    have hb' : b < 128 := hb
    show s * 128 + b < 16384
    omega
  rw [← testAt_local hb, Nat.add_assoc, ← memAt_block_local hli, c.mem]

/-- The popcount of the masked sub-block word counts the elements of `P`
strictly between the sub-block start and the queried index. -/
theorem count_subblock_partial {P : List Nat} {bs : List Block} (c : CoreInv P bs)
    {k : Nat} (hk : k < bs.length) {s r : Nat} (hs : s < SUB_BLOCKS_PER_BLOCK)
    (hr : r ≤ BITS_PER_SUB_BLOCK) :
    popCount ((bs.getD k zeroBlock).bits.getD s 0 >>> (BITS_PER_SUB_BLOCK - r)) =
      P.countP (fun x => decide (k * BITS_PER_BLOCK + s * BITS_PER_SUB_BLOCK ≤ x ∧
        x < k * BITS_PER_BLOCK + s * BITS_PER_SUB_BLOCK + r)) := by
  have hshape := c.shape (bs.getD k zeroBlock) (getD_mem bs hk zeroBlock)
  have hslen : s < (bs.getD k zeroBlock).bits.length := by
    rw [hshape.1]
    exact hs
  have hw : (bs.getD k zeroBlock).bits.getD s 0 < 2 ^ 128 :=
    hshape.2.2 _ (getD_mem _ hslen 0)
  have hmain := popCount_shiftRight_countP 128 r hr _ hw
  show popCount ((bs.getD k zeroBlock).bits.getD s 0 >>> (128 - r)) = _
  rw [hmain]
  rw [countP_ext _ _
    (fun b => decide ((k * BITS_PER_BLOCK + s * BITS_PER_SUB_BLOCK + b) ∈ P))]
  · exact (countP_interval_eq_range P c.nodup _ r).symm
  · intro b hb
    rw [List.mem_range] at hb
    have hb' : b < BITS_PER_SUB_BLOCK := by
      have : (r : Nat) ≤ 128 := hr
      show b < 128
      omega
    rw [← memAt_testBit c hs hb']
    rfl

theorem c_shape_last {P : List Nat} {bs : List Block} (hc : CoreInv P bs)
    (hpos : 0 < bs.length) : blockShape (bs.getD (bs.length - 1) zeroBlock) :=
  hc.shape _ (getD_mem bs (by omega) zeroBlock)

/-- For a finalized block, `total_rank` is the base rank plus the popcount of
all of its words. -/
theorem total_rank_eq_rank_add_ones {blk : Block} (hshape : blockShape blk)
    (hsub : subOk blk) : blk.total_rank = blk.rank + wordOnes blk.bits := by
  unfold Block.total_rank
  rw [hsub, subCountsFrom_fst_getD _ 0 _ (by rw [hshape.1]; show 127 < 128; omega),
    Nat.zero_add]
  have hdrop : ((blk.bits.drop (SUB_BLOCKS_PER_BLOCK - 1)).map popCount).sum =
      wordOnes (blk.bits.drop (SUB_BLOCKS_PER_BLOCK - 1)) := rfl
  have hsplit : wordOnes (blk.bits.take (SUB_BLOCKS_PER_BLOCK - 1)) +
      wordOnes (blk.bits.drop (SUB_BLOCKS_PER_BLOCK - 1)) = wordOnes blk.bits := by
    rw [← wordOnes_append, List.take_append_drop]
  rw [hdrop]
  omega

/-- In-range `rank_select` rank component, fully decomposed. -/
theorem rank_select_fst {P : List Nat} {bs : List Block} (fin : FinInv P bs) (i : Nat) :
    ((BitRank.mk bs).rank_select i).1 = P.countP (fun x => decide (x < i)) := by
  obtain ⟨hc, hsubs⟩ := fin
  unfold BitRank.rank_select
  by_cases hk : bs.length ≤ i / BITS_PER_BLOCK
  · rw [if_pos hk]
    show BitRank.max_rank ⟨bs⟩ = _
    have hall : ∀ x ∈ P, x < i := by
      intro x hx
      have h1 := hc.block_lt hx
      have h2 : x / 16384 < i / 16384 := by
        have e1 : x / BITS_PER_BLOCK = x / 16384 := rfl
        have e2 : i / BITS_PER_BLOCK = i / 16384 := rfl
        have e3 : bs.length ≤ i / 16384 := by rw [← e2]; exact hk
        rw [e1] at h1
        omega
      omega
    have hcount : P.countP (fun x => decide (x < i)) = P.length :=
      countP_eq_length_of_all P _ (fun x hx => by simp [hall x hx])
    rw [hcount]
    unfold BitRank.max_rank
    cases hbs : bs with
    | nil =>
      have hP : P = [] := by
        have h0 := hc.len_eq
        rw [hbs] at h0
        simp only [List.length_nil] at h0
        exact (lenSpec_eq_zero_iff P).mp h0.symm
      subst hP
      simp
    | cons b0 rest =>
      have hne : bs ≠ [] := by rw [hbs]; simp
      rw [← hbs, getLast?_eq_some_getD bs hne]
      show (bs.getD (bs.length - 1) zeroBlock).total_rank = P.length
      have hpos : 0 < bs.length := List.length_pos.mpr hne
      have hshape := c_shape_last hc hpos
      have hsub := hsubs (bs.length - 1) (by omega)
      rw [total_rank_eq_rank_add_ones hshape hsub]
      exact last_total hc hne
  · rw [if_neg hk]
    have hklt : i / BITS_PER_BLOCK < bs.length := Nat.not_le.mp hk
    show ((bs.getD (i / BITS_PER_BLOCK) zeroBlock).rank_select (i % BITS_PER_BLOCK)).1 = _
    rw [Block.rank_select_eq]
    show (bs.getD (i / BITS_PER_BLOCK) zeroBlock).rank +
        (bs.getD (i / BITS_PER_BLOCK) zeroBlock).sub_blocks.getD
          (i % BITS_PER_BLOCK / BITS_PER_SUB_BLOCK) 0 +
        popCount (maskedBits (bs.getD (i / BITS_PER_BLOCK) zeroBlock) (i % BITS_PER_BLOCK)) = _
    have hshape := hc.shape _ (getD_mem bs hklt zeroBlock)
    have hs : i % BITS_PER_BLOCK / BITS_PER_SUB_BLOCK < SUB_BLOCKS_PER_BLOCK := by
      show i % 16384 / 128 < 128
      omega
    have hr : i % BITS_PER_BLOCK % BITS_PER_SUB_BLOCK ≤ BITS_PER_SUB_BLOCK := by
      show i % 16384 % 128 ≤ 128
      omega
    have hslen : i % BITS_PER_BLOCK / BITS_PER_SUB_BLOCK < (bs.getD (i / BITS_PER_BLOCK) zeroBlock).bits.length := by
      rw [hshape.1]
      exact hs
    have hw : (bs.getD (i / BITS_PER_BLOCK) zeroBlock).bits.getD
        (i % BITS_PER_BLOCK / BITS_PER_SUB_BLOCK) 0 < 2 ^ BITS_PER_SUB_BLOCK :=
      hshape.2.2 _ (getD_mem _ hslen 0)
    rw [maskedBits_eq hw]
    have hmasked := count_subblock_partial hc hklt hs hr
    have hmod : i % BITS_PER_BLOCK % BITS_PER_SUB_BLOCK = i % BITS_PER_BLOCK % BITS_PER_SUB_BLOCK := rfl
    rw [hmasked]
    -- sub_blocks entry
    have hsubOK := hsubs _ hklt
    rw [hsubOK, subCountsFrom_fst_getD _ 0 _ hslen, Nat.zero_add,
      count_block_prefix hc hklt _ (le_of_lt hs)]
    rw [hc.ranks _ hklt]
    -- arithmetic assembly
    have h3 : P.countP (fun x =>
          decide (i / BITS_PER_BLOCK * BITS_PER_BLOCK +
              i % BITS_PER_BLOCK / BITS_PER_SUB_BLOCK * BITS_PER_SUB_BLOCK ≤ x ∧
            x < i / BITS_PER_BLOCK * BITS_PER_BLOCK +
              i % BITS_PER_BLOCK / BITS_PER_SUB_BLOCK * BITS_PER_SUB_BLOCK +
              i % BITS_PER_BLOCK % BITS_PER_SUB_BLOCK)) =
        P.countP (fun x =>
          decide (i / BITS_PER_BLOCK * BITS_PER_BLOCK +
              i % BITS_PER_BLOCK / BITS_PER_SUB_BLOCK * BITS_PER_SUB_BLOCK ≤ x ∧
            x < i)) := by
      apply countP_congr_iff
      intro x
      show i / 16384 * 16384 + i % 16384 / 128 * 128 ≤ x ∧
          x < i / 16384 * 16384 + i % 16384 / 128 * 128 + i % 16384 % 128 ↔
        i / 16384 * 16384 + i % 16384 / 128 * 128 ≤ x ∧ x < i
      omega
    rw [h3]
    rw [countP_lt_eq_interval P i,
      countP_interval_split P 0 (i / BITS_PER_BLOCK * BITS_PER_BLOCK) i (by omega)
        (by show i / 16384 * 16384 ≤ i; omega),
      countP_interval_split P (i / BITS_PER_BLOCK * BITS_PER_BLOCK)
        (i / BITS_PER_BLOCK * BITS_PER_BLOCK +
          i % BITS_PER_BLOCK / BITS_PER_SUB_BLOCK * BITS_PER_SUB_BLOCK) i
        (by show i / 16384 * 16384 ≤ i / 16384 * 16384 + i % 16384 / 128 * 128; omega)
        (by show i / 16384 * 16384 + i % 16384 / 128 * 128 ≤ i; omega)]
    rw [← countP_lt_eq_interval]
    omega

/-- Membership expressed through the stored word of the position's sub-block. -/
theorem mem_bit_form {P : List Nat} {bs : List Block} (hc : CoreInv P bs) (q : Nat) :
    decide (q ∈ P) =
      ((bs.getD (q / BITS_PER_BLOCK) zeroBlock).bits.getD
        (q % BITS_PER_BLOCK / BITS_PER_SUB_BLOCK) 0).testBit
        ((BITS_PER_SUB_BLOCK - 1) - q % BITS_PER_SUB_BLOCK) := by
  rw [← hc.mem q]
  have h1 : q % BITS_PER_BLOCK % BITS_PER_SUB_BLOCK = q % BITS_PER_SUB_BLOCK := by
    show q % 16384 % 128 = q % 128
    omega
  rw [memAt, Block.testAt, h1]

/-- For an index `q` strictly before `i` inside the same 128-bit window,
membership of `q` is the corresponding bit of the masked value computed by
`Block::rank_select` at `i`. -/
theorem mem_masked_bit {P : List Nat} {bs : List Block} {i q : Nat} (hc : CoreInv P bs)
    (hklt : (i / BITS_PER_BLOCK) < bs.length)
    (hwin : q / BITS_PER_SUB_BLOCK = i / BITS_PER_SUB_BLOCK) (hqi : q < i) :
    decide (q ∈ P) =
      (maskedBits (bs.getD (i / BITS_PER_BLOCK) zeroBlock) (i % BITS_PER_BLOCK)).testBit
        (i % BITS_PER_SUB_BLOCK - 1 - q % BITS_PER_SUB_BLOCK) := by
  have hshape := hc.shape _ (getD_mem bs hklt zeroBlock)
  have hs : i % BITS_PER_BLOCK / BITS_PER_SUB_BLOCK <
      (bs.getD (i / BITS_PER_BLOCK) zeroBlock).bits.length := by
    rw [hshape.1]
    show i % 16384 / 128 < 128
    omega
  have hw : (bs.getD (i / BITS_PER_BLOCK) zeroBlock).bits.getD
      (i % BITS_PER_BLOCK / BITS_PER_SUB_BLOCK) 0 < 2 ^ BITS_PER_SUB_BLOCK :=
    hshape.2.2 _ (getD_mem _ hs 0)
  rw [maskedBits_eq hw, Nat.testBit_shiftRight]
  have hwl : q / 128 = i / 128 := hwin
  have hq1 : q / BITS_PER_BLOCK = i / BITS_PER_BLOCK := by
    show q / 16384 = i / 16384
    omega
  have hq2 : q % BITS_PER_BLOCK / BITS_PER_SUB_BLOCK =
      i % BITS_PER_BLOCK / BITS_PER_SUB_BLOCK := by
    show q % 16384 / 128 = i % 16384 / 128
    omega
  have hq3 : (BITS_PER_SUB_BLOCK - 1) - q % BITS_PER_SUB_BLOCK =
      (BITS_PER_SUB_BLOCK - i % BITS_PER_BLOCK % BITS_PER_SUB_BLOCK) +
        (i % BITS_PER_SUB_BLOCK - 1 - q % BITS_PER_SUB_BLOCK) := by
    show 128 - 1 - q % 128 = 128 - i % 16384 % 128 + (i % 128 - 1 - q % 128)
    omega
  rw [mem_bit_form hc q, hq1, hq2, hq3]

theorem rank_select_snd_eq (b : Block) (li : Nat) :
    (b.rank_select li).2 =
      (if maskedBits b li = 0 then none
       else some (li - trailingZeros (maskedBits b li) - 1)) := rfl

theorem select_in_range {bs : List Block} {i : Nat}
    (h : ¬bs.length ≤ i / BITS_PER_BLOCK) :
    ((BitRank.mk bs).rank_select i).2 =
      ((bs.getD (i / BITS_PER_BLOCK) zeroBlock).rank_select (i % BITS_PER_BLOCK)).2.map
        (fun j => i / BITS_PER_BLOCK * BITS_PER_BLOCK + j) := by
  unfold BitRank.rank_select
  rw [if_neg h]

/-- Full characterization of the select component of `rank_select`:
it returns `some pos` exactly when `pos` is the greatest member of `P` below
`i` lying in the same 128-bit sub-block window as `i`. -/
theorem rank_select_snd_iff {P : List Nat} {bs : List Block} (fin : FinInv P bs)
    (i pos : Nat) :
    ((BitRank.mk bs).rank_select i).2 = some pos ↔
      pos ∈ P ∧ pos < i ∧ pos / BITS_PER_SUB_BLOCK = i / BITS_PER_SUB_BLOCK ∧
        ∀ q ∈ P, ¬(pos < q ∧ q < i) := by
  obtain ⟨hc, hsubs⟩ := fin
  unfold BitRank.rank_select
  by_cases hk : bs.length ≤ i / BITS_PER_BLOCK
  · rw [if_pos hk]
    show (none : Option Nat) = some pos ↔ _
    constructor
    · intro h
      cases h
    · rintro ⟨hpos, hlt, hwin, _⟩
      exfalso
      have h1 : pos / 16384 < bs.length := hc.block_lt hpos
      have h2 : bs.length ≤ i / 16384 := hk
      have h3 : pos / 128 = i / 128 := hwin
      omega
  · rw [if_neg hk]
    have hklt : i / BITS_PER_BLOCK < bs.length := Nat.not_le.mp hk
    show (Option.map (fun j => i / BITS_PER_BLOCK * BITS_PER_BLOCK + j)
      ((bs.getD (i / BITS_PER_BLOCK) zeroBlock).rank_select (i % BITS_PER_BLOCK)).2) =
        some pos ↔ _
    rw [rank_select_snd_eq]
    by_cases hm0 : maskedBits (bs.getD (i / BITS_PER_BLOCK) zeroBlock)
        (i % BITS_PER_BLOCK) = 0
    · rw [if_pos hm0, Option.map_none']
      constructor
      · intro h
        cases h
      · rintro ⟨hpos, hlt, hwin, _⟩
        exfalso
        have hbit := mem_masked_bit hc hklt hwin hlt
        rw [hm0, Nat.zero_testBit] at hbit
        simp [hpos] at hbit
    · rw [if_neg hm0, Option.map_some', Option.some_inj]
      -- abbreviations
      have hshape := hc.shape _ (getD_mem bs hklt zeroBlock)
      have hs : i % BITS_PER_BLOCK / BITS_PER_SUB_BLOCK <
          (bs.getD (i / BITS_PER_BLOCK) zeroBlock).bits.length := by
        rw [hshape.1]
        show i % 16384 / 128 < 128
        omega
      have hw : (bs.getD (i / BITS_PER_BLOCK) zeroBlock).bits.getD
          (i % BITS_PER_BLOCK / BITS_PER_SUB_BLOCK) 0 < 2 ^ BITS_PER_SUB_BLOCK :=
        hshape.2.2 _ (getD_mem _ hs 0)
      have hr0 : i % BITS_PER_BLOCK % BITS_PER_SUB_BLOCK ≠ 0 := by
        intro h
        apply hm0
        unfold maskedBits
        rw [if_pos h]
      have hmasklt : maskedBits (bs.getD (i / BITS_PER_BLOCK) zeroBlock)
          (i % BITS_PER_BLOCK) < 2 ^ (i % BITS_PER_BLOCK % BITS_PER_SUB_BLOCK) := by
        rw [maskedBits_eq hw, Nat.shiftRight_eq_div_pow]
        rw [Nat.div_lt_iff_lt_mul (Nat.pos_pow_of_pos _ (by omega)), ← Nat.pow_add]
        have he : i % BITS_PER_BLOCK % BITS_PER_SUB_BLOCK +
            (BITS_PER_SUB_BLOCK - i % BITS_PER_BLOCK % BITS_PER_SUB_BLOCK) = 128 := by
          show i % 16384 % 128 + (128 - i % 16384 % 128) = 128
          omega
        rw [he]
        exact hw
      have htzlt := trailingZeros_lt_of_lt hm0 hmasklt
      obtain ⟨htzbit, htzmin⟩ := trailingZeros_spec _ hm0
      have hrl : i % BITS_PER_BLOCK % BITS_PER_SUB_BLOCK = i % 128 := by
        show i % 16384 % 128 = i % 128
        omega
      have hloc : i % BITS_PER_BLOCK = i % 16384 := rfl
      have htz128 : trailingZeros (maskedBits (bs.getD (i / BITS_PER_BLOCK) zeroBlock)
          (i % BITS_PER_BLOCK)) < i % 128 := by
        rw [← hrl]
        exact htzlt
      -- the candidate position returned by the code
      have hpos0lt : i / BITS_PER_BLOCK * BITS_PER_BLOCK +
          (i % BITS_PER_BLOCK - trailingZeros (maskedBits
            (bs.getD (i / BITS_PER_BLOCK) zeroBlock) (i % BITS_PER_BLOCK)) - 1) < i := by
        show i / 16384 * 16384 + (i % 16384 - _ - 1) < i
        omega
      have hpos0win : (i / BITS_PER_BLOCK * BITS_PER_BLOCK +
          (i % BITS_PER_BLOCK - trailingZeros (maskedBits
            (bs.getD (i / BITS_PER_BLOCK) zeroBlock) (i % BITS_PER_BLOCK)) - 1)) /
          BITS_PER_SUB_BLOCK = i / BITS_PER_SUB_BLOCK := by
        show (i / 16384 * 16384 + (i % 16384 - _ - 1)) / 128 = i / 128
        omega
      have hpos0idx : i % BITS_PER_SUB_BLOCK - 1 -
          (i / BITS_PER_BLOCK * BITS_PER_BLOCK +
            (i % BITS_PER_BLOCK - trailingZeros (maskedBits
              (bs.getD (i / BITS_PER_BLOCK) zeroBlock) (i % BITS_PER_BLOCK)) - 1)) %
            BITS_PER_SUB_BLOCK =
          trailingZeros (maskedBits (bs.getD (i / BITS_PER_BLOCK) zeroBlock)
            (i % BITS_PER_BLOCK)) := by
        show i % 128 - 1 - (i / 16384 * 16384 + (i % 16384 - _ - 1)) % 128 = _
        omega
      have hpos0mem : (i / BITS_PER_BLOCK * BITS_PER_BLOCK +
          (i % BITS_PER_BLOCK - trailingZeros (maskedBits
            (bs.getD (i / BITS_PER_BLOCK) zeroBlock) (i % BITS_PER_BLOCK)) - 1)) ∈ P := by
        have hb := mem_masked_bit hc hklt hpos0win hpos0lt
        rw [hpos0idx, htzbit] at hb
        exact of_decide_eq_true hb
      have hnoq : ∀ q ∈ P, ¬((i / BITS_PER_BLOCK * BITS_PER_BLOCK +
          (i % BITS_PER_BLOCK - trailingZeros (maskedBits
            (bs.getD (i / BITS_PER_BLOCK) zeroBlock) (i % BITS_PER_BLOCK)) - 1)) < q ∧
          q < i) := by
        rintro q hq ⟨hq1, hq2⟩
        have hq1l : i / 16384 * 16384 + (i % 16384 - trailingZeros (maskedBits
            (bs.getD (i / BITS_PER_BLOCK) zeroBlock) (i % BITS_PER_BLOCK)) - 1) < q := hq1
        have hqwin : q / BITS_PER_SUB_BLOCK = i / BITS_PER_SUB_BLOCK := by
          have h1 : (i / 16384 * 16384 + (i % 16384 - trailingZeros (maskedBits
              (bs.getD (i / BITS_PER_BLOCK) zeroBlock) (i % BITS_PER_BLOCK)) - 1)) / 128 =
              i / 128 := hpos0win
          show q / 128 = i / 128
          omega
        have hb := mem_masked_bit hc hklt hqwin hq2
        have hjlt : i % BITS_PER_SUB_BLOCK - 1 - q % BITS_PER_SUB_BLOCK <
            trailingZeros (maskedBits (bs.getD (i / BITS_PER_BLOCK) zeroBlock)
              (i % BITS_PER_BLOCK)) := by
          have h1 : q / 128 = i / 128 := hqwin
          show i % 128 - 1 - q % 128 < _
          omega
        rw [htzmin _ hjlt] at hb
        simp [hq] at hb
      constructor
      · intro h
        rw [← h]
        exact ⟨hpos0mem, hpos0lt, hpos0win, hnoq⟩
      · rintro ⟨hpos, hlt, hwin, hnob⟩
        rcases Nat.lt_trichotomy (i / BITS_PER_BLOCK * BITS_PER_BLOCK +
            (i % BITS_PER_BLOCK - trailingZeros (maskedBits
              (bs.getD (i / BITS_PER_BLOCK) zeroBlock) (i % BITS_PER_BLOCK)) - 1)) pos
          with h | h | h
        · exact absurd ⟨h, hlt⟩ (hnoq pos hpos)
        · exact h
        · exact absurd ⟨h, hpos0lt⟩ (hnob _ hpos0mem)

/-! ### Derived facts used by the claims -/

theorem max_rank_eq {P : List Nat} {bs : List Block} (fin : FinInv P bs) :
    (BitRank.mk bs).max_rank = P.length := by
  have h1 := rank_select_fst fin (bs.length * BITS_PER_BLOCK)
  have hik : bs.length ≤ bs.length * BITS_PER_BLOCK / BITS_PER_BLOCK := by
    rw [Nat.mul_div_cancel _ (by rw [BITS_PER_BLOCK]; omega)]
  unfold BitRank.rank_select at h1
  rw [if_pos hik] at h1
  have h2 : (BitRank.mk bs).max_rank =
      P.countP (fun x => decide (x < bs.length * BITS_PER_BLOCK)) := h1
  rw [h2]
  apply countP_eq_length_of_all
  intro x hx
  simp only [decide_eq_true_eq]
  exact fin.1.elem_lt hx

theorem le_getLast_of_pairwise :
    ∀ {P : List Nat} {p : Nat}, List.Pairwise (· < ·) P → P.getLast? = some p →
      ∀ x ∈ P, x ≤ p := by
  intro P
  induction P with
  | nil =>
    intro p _ h
    simp at h
  | cons a rest ih =>
    intro p hpw hlast x hx
    cases rest with
    | nil =>
      simp at hlast hx
      omega
    | cons b rest' =>
      rw [List.getLast?_cons_cons] at hlast
      rcases List.mem_cons.mp hx with rfl | hx'
      · have hp_mem : p ∈ b :: rest' := List.mem_of_getLast?_eq_some hlast
        have := (List.pairwise_cons.mp hpw).1 p hp_mem
        omega
      · exact ih (List.pairwise_cons.mp hpw).2 hlast x hx'

/-- Total number of set bits in a list of blocks. -/
def blocksOnes (bs : List Block) : Nat := (bs.map (fun b => wordOnes b.bits)).sum

theorem rank_eq_blocksOnes {P : List Nat} {bs : List Block} (hc : CoreInv P bs) :
    ∀ k, k ≤ bs.length →
      P.countP (fun x => decide (x < k * BITS_PER_BLOCK)) = blocksOnes (bs.take k) := by
  intro k
  induction k with
  | zero =>
    intro _
    simp only [List.take_zero, blocksOnes, List.map_nil, List.sum_nil, Nat.zero_mul]
    rw [List.countP_eq_zero]
    intro x _
    simp
  | succ k ih =>
    intro hk
    have hklt : k < bs.length := by omega
    have htake : bs.take (k + 1) = bs.take k ++ [bs.getD k zeroBlock] := by
      rw [List.take_succ, List.getElem?_eq_getElem hklt]
      simp [List.getD_eq_getElem?_getD, List.getElem?_eq_getElem hklt]
    rw [htake]
    have hsum : blocksOnes (bs.take k ++ [bs.getD k zeroBlock]) =
        blocksOnes (bs.take k) + wordOnes (bs.getD k zeroBlock).bits := by
      simp [blocksOnes]
    rw [hsum, ← ih (by omega), countP_lt_eq_interval P ((k + 1) * BITS_PER_BLOCK),
      countP_interval_split P 0 (k * BITS_PER_BLOCK) ((k + 1) * BITS_PER_BLOCK)
        (by omega) (Nat.mul_le_mul_right _ (by omega)),
      ← countP_lt_eq_interval, count_block_full hc hklt]

theorem finish_last_block_length (b : BitRankBuilder) :
    b.finish_last_block.1.blocks.length = b.blocks.length := by
  unfold BitRankBuilder.finish_last_block
  cases hl : b.blocks.getLast? with
  | none => rfl
  | some blk =>
    simp only []
    apply setLastTo_length
    intro h
    rw [h] at hl
    simp at hl

/-! ### Exact characterization of `push` failure -/

/-- `push` panics exactly when the position's block is an already-superseded
one (at least two behind the block count) or when it targets the current last
block at a bit that is already set. -/
theorem push_none_iff (b : BitRankBuilder) (p : Nat) :
    b.push p = none ↔
      (p / BITS_PER_BLOCK + 1 < b.blocks.length ∨
        (b.blocks.length = p / BITS_PER_BLOCK + 1 ∧
          ∃ blk, b.blocks.getLast? = some blk ∧
            blk.bits.getD (p % BITS_PER_BLOCK / BITS_PER_SUB_BLOCK) 0 &&&
              2 ^ ((BITS_PER_SUB_BLOCK - 1) - p % BITS_PER_BLOCK % BITS_PER_SUB_BLOCK)
              ≠ 0)) := by
  have hplt : p % BITS_PER_BLOCK < BITS_PER_BLOCK := by
    show p % 16384 < 16384
    omega
  unfold BitRankBuilder.push
  by_cases hg : b.blocks.length ≤ p / BITS_PER_BLOCK + 1
  · rw [if_pos hg]
    by_cases hext : b.blocks.length ≤ p / BITS_PER_BLOCK
    · rw [pushBlocks_pos hext]
      have hflen := finish_last_block_length b
      have hlen2 : (b.finish_last_block.1.blocks ++
          List.replicate (p / BITS_PER_BLOCK + 1 - b.finish_last_block.1.blocks.length)
            { zeroBlock with rank := b.finish_last_block.2 }).length =
          p / BITS_PER_BLOCK + 1 := by
        rw [List.length_append, List.length_replicate, hflen]
        omega
      have hne : (b.finish_last_block.1.blocks ++
          List.replicate (p / BITS_PER_BLOCK + 1 - b.finish_last_block.1.blocks.length)
            { zeroBlock with rank := b.finish_last_block.2 }) ≠ [] := by
        intro h
        rw [h] at hlen2
        simp at hlen2
      rw [getLast?_eq_some_getD _ hne, Option.some_bind]
      have hlastz : (b.finish_last_block.1.blocks ++
          List.replicate (p / BITS_PER_BLOCK + 1 - b.finish_last_block.1.blocks.length)
            { zeroBlock with rank := b.finish_last_block.2 }).getD
          ((b.finish_last_block.1.blocks ++
            List.replicate (p / BITS_PER_BLOCK + 1 - b.finish_last_block.1.blocks.length)
              { zeroBlock with rank := b.finish_last_block.2 }).length - 1) zeroBlock =
          { zeroBlock with rank := b.finish_last_block.2 } := by
        rw [hlen2]
        apply getD_append_replicate
        · rw [hflen]
          omega
        · rw [hflen]
          omega
      rw [hlastz]
      have hzero : ({ zeroBlock with rank := b.finish_last_block.2 } : Block).bits.getD
          (p % BITS_PER_BLOCK / BITS_PER_SUB_BLOCK) 0 = 0 := by
        show (List.replicate SUB_BLOCKS_PER_BLOCK (0 : Nat)).getD _ 0 = 0
        rw [List.getD_eq_getElem?_getD, List.getElem?_replicate]
        split_ifs <;> rfl
      have hset : ({ zeroBlock with rank := b.finish_last_block.2 } : Block).set
          (p % BITS_PER_BLOCK) ≠ none := by
        rw [Block.set_eq, if_pos hplt, hzero]
        rw [if_pos (by simp [Nat.zero_and])]
        exact Option.some_ne_none _
      constructor
      · intro h
        cases hs : ({ zeroBlock with rank := b.finish_last_block.2 } : Block).set
            (p % BITS_PER_BLOCK) with
        | none => exact absurd hs hset
        | some nb =>
          rw [hs, Option.map_some'] at h
          exact absurd h (Option.some_ne_none _)
      · rintro (h | ⟨h, _⟩)
        · exact absurd h (by omega)
        · exact absurd h (by omega)
    · rw [pushBlocks_neg hext]
      have hlen1 : b.blocks.length = p / BITS_PER_BLOCK + 1 :=
        Nat.le_antisymm hg (Nat.not_le.mp hext)
      have hne : b.blocks ≠ [] := by
        intro h
        rw [h] at hlen1
        simp at hlen1
      rw [getLast?_eq_some_getD _ hne, Option.some_bind, Block.set_eq, if_pos hplt]
      by_cases hguard : (b.blocks.getD (b.blocks.length - 1) zeroBlock).bits.getD
          (p % BITS_PER_BLOCK / BITS_PER_SUB_BLOCK) 0 &&&
          2 ^ ((BITS_PER_SUB_BLOCK - 1) - p % BITS_PER_BLOCK % BITS_PER_SUB_BLOCK) = 0
      · rw [if_pos hguard, Option.map_some']
        constructor
        · intro h
          exact absurd h (Option.some_ne_none _)
        · rintro (h | ⟨_, blk, hblk, hbad⟩)
          · exact absurd h (by omega)
          · rw [Option.some_inj] at hblk
            rw [← hblk] at hbad
            exact absurd hguard hbad
      · rw [if_neg hguard, Option.map_none']
        constructor
        · intro _
          exact Or.inr ⟨hlen1, _, rfl, hguard⟩
        · intro _
          rfl
  · rw [if_neg hg]
    constructor
    · intro _
      exact Or.inl (by omega)
    · intro _
      rfl

/-! ### Panic-checked model of the query path

`Block::rank_select` and `BitRank::rank_select` contain operations that
panic in Rust when misused: slice indexing out of bounds, a right shift by
128 or more, and `usize` subtraction underflow.  The checked versions below
return `none` at exactly those points; proving they always return `some` of
the total model's answer shows the query path never panics. -/

def Block.rankSelectChecked (b : Block) (local_idx : Nat) : Option (Nat × Option Nat) :=
  (b.sub_blocks[local_idx / BITS_PER_SUB_BLOCK]?).bind fun sb =>
    ((if local_idx % BITS_PER_SUB_BLOCK = 0 then some 0
      else (b.bits[local_idx / BITS_PER_SUB_BLOCK]?).bind fun w =>
        if BITS_PER_SUB_BLOCK - local_idx % BITS_PER_SUB_BLOCK < SubblockBitsWidth then
          some (w >>> (BITS_PER_SUB_BLOCK - local_idx % BITS_PER_SUB_BLOCK))
        else none)).bind fun masked =>
      if masked = 0 then
        some (b.rank + sb + popCount masked, none)
      else if trailingZeros masked + 1 ≤ local_idx then
        some (b.rank + sb + popCount masked,
          some (local_idx - trailingZeros masked - 1))
      else none

def BitRank.rankSelectChecked (br : BitRank) (idx : Nat) : Option (Nat × Option Nat) :=
  if br.blocks.length ≤ idx / BITS_PER_BLOCK then
    some (br.max_rank, none)
  else
    (br.blocks[idx / BITS_PER_BLOCK]?).bind fun blk =>
      (blk.rankSelectChecked (idx % BITS_PER_BLOCK)).map
        fun rs => (rs.1, rs.2.map fun j => idx / BITS_PER_BLOCK * BITS_PER_BLOCK + j)

/-- On any finished structure built from a strictly increasing sequence, the
checked query equals `some` of the total query: no panic point is hit. -/
theorem rankSelectChecked_eq {P : List Nat} {bs : List Block} (fin : FinInv P bs)
    (idx : Nat) :
    (BitRank.mk bs).rankSelectChecked idx = some ((BitRank.mk bs).rank_select idx) := by
  obtain ⟨hc, hsubs⟩ := fin
  unfold BitRank.rankSelectChecked BitRank.rank_select
  by_cases hk : bs.length ≤ idx / BITS_PER_BLOCK
  · rw [if_pos hk, if_pos hk]
  · rw [if_neg hk, if_neg hk]
    have hklt : idx / BITS_PER_BLOCK < bs.length := Nat.not_le.mp hk
    have hget : bs[idx / BITS_PER_BLOCK]? = some (bs.getD (idx / BITS_PER_BLOCK) zeroBlock) := by
      rw [List.getElem?_eq_getElem hklt]
      rw [List.getD_eq_getElem?_getD, List.getElem?_eq_getElem hklt]
      rfl
    show (bs[idx / BITS_PER_BLOCK]?).bind (fun blk =>
      (blk.rankSelectChecked (idx % BITS_PER_BLOCK)).map
        fun rs : Nat × Option Nat =>
          (rs.1, rs.2.map fun j => idx / BITS_PER_BLOCK * BITS_PER_BLOCK + j)) = _
    rw [hget, Option.some_bind]
    have hshape := hc.shape _ (getD_mem bs hklt zeroBlock)
    have hs128 : idx % BITS_PER_BLOCK / BITS_PER_SUB_BLOCK < SUB_BLOCKS_PER_BLOCK := by
      show idx % 16384 / 128 < 128
      omega
    have hsb : (bs.getD (idx / BITS_PER_BLOCK) zeroBlock).sub_blocks[idx % BITS_PER_BLOCK /
        BITS_PER_SUB_BLOCK]? = some ((bs.getD (idx / BITS_PER_BLOCK)
          zeroBlock).sub_blocks.getD (idx % BITS_PER_BLOCK / BITS_PER_SUB_BLOCK) 0) := by
      have hlen : idx % BITS_PER_BLOCK / BITS_PER_SUB_BLOCK <
          (bs.getD (idx / BITS_PER_BLOCK) zeroBlock).sub_blocks.length := by
        rw [hshape.2.1]
        exact hs128
      rw [List.getElem?_eq_getElem hlen]
      exact congrArg some (getD_of_lt _ hlen 0).symm
    have hbitslen : idx % BITS_PER_BLOCK / BITS_PER_SUB_BLOCK <
        (bs.getD (idx / BITS_PER_BLOCK) zeroBlock).bits.length := by
      rw [hshape.1]
      exact hs128
    have hbitsq : (bs.getD (idx / BITS_PER_BLOCK) zeroBlock).bits[idx % BITS_PER_BLOCK /
        BITS_PER_SUB_BLOCK]? = some ((bs.getD (idx / BITS_PER_BLOCK)
          zeroBlock).bits.getD (idx % BITS_PER_BLOCK / BITS_PER_SUB_BLOCK) 0) := by
      rw [List.getElem?_eq_getElem hbitslen]
      exact congrArg some (getD_of_lt _ hbitslen 0).symm
    have hw : (bs.getD (idx / BITS_PER_BLOCK) zeroBlock).bits.getD
        (idx % BITS_PER_BLOCK / BITS_PER_SUB_BLOCK) 0 < 2 ^ BITS_PER_SUB_BLOCK :=
      hshape.2.2 _ (getD_mem _ hbitslen 0)
    unfold Block.rankSelectChecked
    rw [hsb, Option.some_bind]
    have hmaskedstep : (if idx % BITS_PER_BLOCK % BITS_PER_SUB_BLOCK = 0 then some 0
        else ((bs.getD (idx / BITS_PER_BLOCK) zeroBlock).bits[idx % BITS_PER_BLOCK /
            BITS_PER_SUB_BLOCK]?).bind fun w =>
          if BITS_PER_SUB_BLOCK - idx % BITS_PER_BLOCK % BITS_PER_SUB_BLOCK <
              SubblockBitsWidth then
            some (w >>> (BITS_PER_SUB_BLOCK - idx % BITS_PER_BLOCK % BITS_PER_SUB_BLOCK))
          else none) =
        some (maskedBits (bs.getD (idx / BITS_PER_BLOCK) zeroBlock)
          (idx % BITS_PER_BLOCK)) := by
      unfold maskedBits
      by_cases hr : idx % BITS_PER_BLOCK % BITS_PER_SUB_BLOCK = 0
      · rw [if_pos hr, if_pos hr]
      · rw [if_neg hr, if_neg hr, hbitsq, Option.some_bind]
        have hshift : BITS_PER_SUB_BLOCK - idx % BITS_PER_BLOCK % BITS_PER_SUB_BLOCK <
            SubblockBitsWidth := by
          have hr' : idx % 16384 % 128 ≠ 0 := hr
          show 128 - idx % 16384 % 128 < 128
          omega
        rw [if_pos hshift]
    rw [hmaskedstep, Option.some_bind, Block.rank_select_eq]
    by_cases hm0 : maskedBits (bs.getD (idx / BITS_PER_BLOCK) zeroBlock)
        (idx % BITS_PER_BLOCK) = 0
    · rw [if_pos hm0, if_pos hm0, Option.map_some']
    · have hr0 : idx % BITS_PER_BLOCK % BITS_PER_SUB_BLOCK ≠ 0 := by
        intro h
        apply hm0
        unfold maskedBits
        rw [if_pos h]
      have hmasklt : maskedBits (bs.getD (idx / BITS_PER_BLOCK) zeroBlock)
          (idx % BITS_PER_BLOCK) < 2 ^ (idx % BITS_PER_BLOCK % BITS_PER_SUB_BLOCK) := by
        rw [maskedBits_eq hw, Nat.shiftRight_eq_div_pow]
        rw [Nat.div_lt_iff_lt_mul (Nat.pos_pow_of_pos _ (by omega)), ← Nat.pow_add]
        have he : idx % BITS_PER_BLOCK % BITS_PER_SUB_BLOCK +
            (BITS_PER_SUB_BLOCK - idx % BITS_PER_BLOCK % BITS_PER_SUB_BLOCK) = 128 := by
          show idx % 16384 % 128 + (128 - idx % 16384 % 128) = 128
          omega
        rw [he]
        exact hw
      have htzlt := trailingZeros_lt_of_lt hm0 hmasklt
      have htzle : trailingZeros (maskedBits (bs.getD (idx / BITS_PER_BLOCK) zeroBlock)
          (idx % BITS_PER_BLOCK)) + 1 ≤ idx % BITS_PER_BLOCK := by
        have h1 : trailingZeros (maskedBits (bs.getD (idx / BITS_PER_BLOCK) zeroBlock)
            (idx % BITS_PER_BLOCK)) < idx % 16384 % 128 := htzlt
        show _ + 1 ≤ idx % 16384
        omega
      rw [if_neg hm0, if_neg hm0, if_pos htzle, Option.map_some']

/-! ## The claims -/

set_option maxRecDepth 40000

/-- C1: for every strictly increasing sequence of positions `P` pushed into a
builder and finished, and for every queried index `i`, `rank i` returns the
number of elements of `P` strictly less than `i`. -/
theorem claim1_rank_counts_smaller (P : List Nat) (hP : List.Pairwise (· < ·) P)
    (br : BitRank) (hbr : bitrank P = some br) (i : Nat) :
    br.rank i = P.countP (fun x => decide (x < i)) :=
  rank_select_fst (bitrank_fin hP hbr) i

theorem claim1_witness :
    List.Pairwise (· < ·) [1, 5, 200] ∧
      (bitrank [1, 5, 200]).elim False (fun br => br.rank 100 = 2) := by
  refine ⟨by decide, ?_⟩
  cases hbr : bitrank [1, 5, 200] with
  | none => exact absurd hbr (by decide)
  | some br =>
    show br.rank 100 = 2
    rw [claim1_rank_counts_smaller [1, 5, 200] (by decide) br hbr 100]
    decide

/-- C2: `rank_select i` returns `some pos` only when `pos` is a member of `P`,
`pos < i`, and no other member of `P` lies strictly between `pos` and `i`
within the same 128-bit sub-block window; and it returns `none` whenever no
member of `P` lies below `i` inside `i`'s own sub-block window, even when a
qualifying member exists in an earlier sub-block. -/
theorem claim2_select_same_subblock (P : List Nat) (hP : List.Pairwise (· < ·) P)
    (br : BitRank) (hbr : bitrank P = some br) (i : Nat) :
    (∀ pos, (br.rank_select i).2 = some pos →
      pos ∈ P ∧ pos < i ∧ pos / BITS_PER_SUB_BLOCK = i / BITS_PER_SUB_BLOCK ∧
        ∀ q ∈ P, ¬(pos < q ∧ q < i ∧ q / BITS_PER_SUB_BLOCK = i / BITS_PER_SUB_BLOCK)) ∧
    ((br.rank_select i).2 = none →
      ∀ pos ∈ P, ¬(pos < i ∧ pos / BITS_PER_SUB_BLOCK = i / BITS_PER_SUB_BLOCK)) := by
  have fin := bitrank_fin hP hbr
  constructor
  · intro pos hsel
    obtain ⟨h1, h2, h3, h4⟩ := (rank_select_snd_iff fin i pos).mp hsel
    exact ⟨h1, h2, h3, fun q hq hcon => h4 q hq ⟨hcon.1, hcon.2.1⟩⟩
  · intro hnone pos hpos hcon
    have hTne : (P.toFinset.filter
        (fun x => x < i ∧ x / BITS_PER_SUB_BLOCK = i / BITS_PER_SUB_BLOCK)).Nonempty := by
      refine ⟨pos, ?_⟩
      rw [Finset.mem_filter, List.mem_toFinset]
      exact ⟨hpos, hcon⟩
    have hmT := Finset.max'_mem _ hTne
    rw [Finset.mem_filter, List.mem_toFinset] at hmT
    obtain ⟨hmP, hmlt, hmwin⟩ := hmT
    have hsome : (br.rank_select i).2 = some ((P.toFinset.filter
        (fun x => x < i ∧ x / BITS_PER_SUB_BLOCK = i / BITS_PER_SUB_BLOCK)).max' hTne) := by
      apply (rank_select_snd_iff fin i _).mpr
      refine ⟨hmP, hmlt, hmwin, ?_⟩
      rintro q hq ⟨hmq, hqi⟩
      have hqwin : q / BITS_PER_SUB_BLOCK = i / BITS_PER_SUB_BLOCK := by
        have h1 : (P.toFinset.filter (fun x => x < i ∧
            x / BITS_PER_SUB_BLOCK = i / BITS_PER_SUB_BLOCK)).max' hTne / 128 =
            i / 128 := hmwin
        show q / 128 = i / 128
        omega
      have hqT : q ∈ P.toFinset.filter
          (fun x => x < i ∧ x / BITS_PER_SUB_BLOCK = i / BITS_PER_SUB_BLOCK) := by
        rw [Finset.mem_filter, List.mem_toFinset]
        exact ⟨hq, hqi, hqwin⟩
      have := Finset.le_max' _ q hqT
      omega
    rw [hnone] at hsome
    cases hsome

theorem claim2_witness :
    List.Pairwise (· < ·) [5] ∧
      (bitrank [5]).elim False (fun br =>
        (∀ pos, (br.rank_select 300).2 = some pos →
          pos ∈ [5] ∧ pos < 300 ∧ pos / BITS_PER_SUB_BLOCK = 300 / BITS_PER_SUB_BLOCK ∧
            ∀ q ∈ [5], ¬(pos < q ∧ q < 300 ∧
              q / BITS_PER_SUB_BLOCK = 300 / BITS_PER_SUB_BLOCK)) ∧
        ((br.rank_select 300).2 = none →
          ∀ pos ∈ [5], ¬(pos < 300 ∧
            pos / BITS_PER_SUB_BLOCK = 300 / BITS_PER_SUB_BLOCK))) := by
  refine ⟨by decide, ?_⟩
  cases hbr : bitrank [5] with
  | none => exact absurd hbr (by decide)
  | some br => exact claim2_select_same_subblock [5] (by decide) br hbr 300

/-- C3 counterexample: pushing 10 and then the smaller, never-set position 5
into a fresh builder succeeds silently, refuting the claim that every
non-increasing push panics. -/
theorem claim3_counterexample :
    ((BitRankBuilder.new.push 10).bind (fun b => b.push 5)).isSome = true := by decide

/-- C3 (amended): `push position` fails with a panic exactly when the
position's block index is at least two behind the number of existing blocks
(an already-finalized block), or when it targets the current last block at a
bit that is already set; a not-yet-set position whose block is the current
last block is accepted silently even when it is smaller than a previously
pushed position. -/
theorem claim3_push_panics_iff (b : BitRankBuilder) (p : Nat) :
    b.push p = none ↔
      (p / BITS_PER_BLOCK + 1 < b.blocks.length ∨
        (b.blocks.length = p / BITS_PER_BLOCK + 1 ∧
          ∃ blk, b.blocks.getLast? = some blk ∧
            blk.bits.getD (p % BITS_PER_BLOCK / BITS_PER_SUB_BLOCK) 0 &&&
              2 ^ ((BITS_PER_SUB_BLOCK - 1) - p % BITS_PER_BLOCK % BITS_PER_SUB_BLOCK)
              ≠ 0)) :=
  push_none_iff b p

/-- C4: any query whose block number is at or beyond the number of built
blocks returns `(max_rank, none)` from `rank_select` and `max_rank` from
`rank`; it is not an error. -/
theorem claim4_out_of_range (br : BitRank) (idx : Nat)
    (h : br.blocks.length ≤ idx / BITS_PER_BLOCK) :
    br.rank_select idx = (br.max_rank, none) ∧ br.rank idx = br.max_rank := by
  have h1 : br.rank_select idx = (br.max_rank, none) := by
    unfold BitRank.rank_select
    rw [if_pos h]
  refine ⟨h1, ?_⟩
  rw [BitRank.rank, h1]

theorem claim4_witness :
    (bitrank [0]).elim False (fun br =>
      br.rank_select 16384 = (br.max_rank, none) ∧ br.rank 16384 = br.max_rank) := by
  cases hbr : bitrank [0] with
  | none => exact absurd hbr (by decide)
  | some br =>
    show br.rank_select 16384 = (br.max_rank, none) ∧ br.rank 16384 = br.max_rank
    have hlen : (bitrank [0]).map (fun b => b.blocks.length) = some 1 := by decide
    rw [hbr, Option.map_some'] at hlen
    have hl : br.blocks.length = 1 := Option.some_inj.mp hlen
    exact claim4_out_of_range br 16384 (by rw [hl]; decide)

/-- C5 counterexample: for the structure built from `[0]`, querying index 1
(which is `last + 1`) yields `(1, some 0)`, not `(1, none)`: the select
component is returned whenever the last element shares the query's 128-bit
sub-block. -/
theorem claim5_counterexample :
    (bitrank [0]).map (fun br => br.rank_select 1) = some (1, some 0) ∧
      some ((1 : Nat), (some 0 : Option Nat)) ≠ some (1, (none : Option Nat)) := by
  constructor
  · decide
  · decide

/-- C5 (amended): for a structure built from a non-empty strictly increasing
sequence with last element `p`, querying `rank_select` at any `i ≥ p + 1`
returns rank `|P|`, and the select component is `some p` when `i` lies in the
same 128-bit sub-block window as `p`, `none` otherwise. -/
theorem claim5_beyond_last (P : List Nat) (hP : List.Pairwise (· < ·) P)
    (br : BitRank) (hbr : bitrank P = some br) (p : Nat) (hp : P.getLast? = some p)
    (i : Nat) (hi : p + 1 ≤ i) :
    br.rank_select i = (P.length,
      if i / BITS_PER_SUB_BLOCK = p / BITS_PER_SUB_BLOCK then some p else none) := by
  have fin := bitrank_fin hP hbr
  have hpmem : p ∈ P := List.mem_of_getLast?_eq_some hp
  have hle : ∀ x ∈ P, x ≤ p := le_getLast_of_pairwise hP hp
  have hfst : (br.rank_select i).1 = P.countP (fun x => decide (x < i)) :=
    rank_select_fst fin i
  have hfst2 : (br.rank_select i).1 = P.length := by
    rw [hfst]
    apply countP_eq_length_of_all
    intro x hx
    have := hle x hx
    simp only [decide_eq_true_eq]
    omega
  have hsnd : (br.rank_select i).2 =
      (if i / BITS_PER_SUB_BLOCK = p / BITS_PER_SUB_BLOCK then some p else none) := by
    by_cases hwin : i / BITS_PER_SUB_BLOCK = p / BITS_PER_SUB_BLOCK
    · rw [if_pos hwin]
      apply (rank_select_snd_iff fin i p).mpr
      refine ⟨hpmem, by omega, hwin.symm, ?_⟩
      rintro q hq ⟨h1, h2⟩
      have := hle q hq
      omega
    · rw [if_neg hwin]
      cases hsel : (br.rank_select i).2 with
      | none => rfl
      | some pos =>
        exfalso
        obtain ⟨h1, h2, h3, h4⟩ := (rank_select_snd_iff fin i pos).mp hsel
        have hpp := hle pos h1
        rcases Nat.lt_or_ge pos p with hc | hc
        · exact h4 p hpmem ⟨hc, by omega⟩
        · have : pos = p := by omega
          subst this
          exact hwin h3.symm
  have hpair : br.rank_select i = ((br.rank_select i).1, (br.rank_select i).2) := rfl
  rw [hpair, hfst2, hsnd]

theorem claim5_witness :
    List.Pairwise (· < ·) [5] ∧ [5].getLast? = some 5 ∧ 5 + 1 ≤ 6 ∧
      (bitrank [5]).elim False (fun br => br.rank_select 6 = (1, some 5)) := by
  refine ⟨by decide, by decide, by decide, ?_⟩
  cases hbr : bitrank [5] with
  | none => exact absurd hbr (by decide)
  | some br =>
    show br.rank_select 6 = (1, some 5)
    rw [claim5_beyond_last [5] (by decide) br hbr 5 (by decide) 6 (by decide)]
    decide

/-- C6: for every structure built from a strictly increasing sequence `P`,
`rank 0` is `0` and `max_rank` equals `|P|` (in particular `0` when `P` is
empty, where no blocks are built). -/
theorem claim6_rank_zero_and_max_rank (P : List Nat) (hP : List.Pairwise (· < ·) P)
    (br : BitRank) (hbr : bitrank P = some br) :
    br.rank 0 = 0 ∧ br.max_rank = P.length := by
  have fin := bitrank_fin hP hbr
  constructor
  · have h : br.rank 0 = P.countP (fun x => decide (x < 0)) := rank_select_fst fin 0
    rw [h, List.countP_eq_zero]
    intro x _
    simp
  · exact max_rank_eq fin

theorem claim6_witness :
    List.Pairwise (· < ·) [0] ∧
      (bitrank [0]).elim False (fun br => br.rank 0 = 0 ∧ br.max_rank = 1) := by
  refine ⟨by decide, ?_⟩
  cases hbr : bitrank [0] with
  | none => exact absurd hbr (by decide)
  | some br =>
    show br.rank 0 = 0 ∧ br.max_rank = 1
    have h := claim6_rank_zero_and_max_rank [0] (by decide) br hbr
    exact ⟨h.1, h.2⟩

/-- C7: for every finished structure and all indices `i ≤ j`,
`rank i ≤ rank j`. -/
theorem claim7_rank_monotone (P : List Nat) (hP : List.Pairwise (· < ·) P)
    (br : BitRank) (hbr : bitrank P = some br) (i j : Nat) (hij : i ≤ j) :
    br.rank i ≤ br.rank j := by
  have fin := bitrank_fin hP hbr
  have h1 : br.rank i = P.countP (fun x => decide (x < i)) := rank_select_fst fin i
  have h2 : br.rank j = P.countP (fun x => decide (x < j)) := rank_select_fst fin j
  rw [h1, h2]
  apply List.countP_mono_left
  intro x _ hx
  simp only [decide_eq_true_eq] at hx ⊢
  omega

theorem claim7_witness :
    List.Pairwise (· < ·) [3, 70] ∧ 5 ≤ 100 ∧
      (bitrank [3, 70]).elim False (fun br => br.rank 5 ≤ br.rank 100) := by
  refine ⟨by decide, by decide, ?_⟩
  cases hbr : bitrank [3, 70] with
  | none => exact absurd hbr (by decide)
  | some br =>
    show br.rank 5 ≤ br.rank 100
    exact claim7_rank_monotone [3, 70] (by decide) br hbr 5 100 (by decide)

/-- C8: in every structure produced by `finish` from a strictly increasing
push sequence, each block's `rank` field is the total number of set bits in
the blocks before it (non-decreasing across blocks), and each block's
`sub_blocks` entry `s` is the population count of its words before `s`, with
entry 0 equal to 0. -/
theorem claim8_block_index_invariants (P : List Nat) (hP : List.Pairwise (· < ·) P)
    (br : BitRank) (hbr : bitrank P = some br) :
    ∀ k, k < br.blocks.length →
      (br.blocks.getD k zeroBlock).rank = blocksOnes (br.blocks.take k) ∧
      (∀ k2, k ≤ k2 → k2 < br.blocks.length →
        (br.blocks.getD k zeroBlock).rank ≤ (br.blocks.getD k2 zeroBlock).rank) ∧
      (∀ s, s < SUB_BLOCKS_PER_BLOCK →
        (br.blocks.getD k zeroBlock).sub_blocks.getD s 0 =
          wordOnes ((br.blocks.getD k zeroBlock).bits.take s)) ∧
      (br.blocks.getD k zeroBlock).sub_blocks.getD 0 0 = 0 := by
  obtain ⟨hc, hsubs⟩ := bitrank_fin hP hbr
  intro k hk
  have hsubsk := hsubs k hk
  have hshape := hc.shape _ (getD_mem _ hk zeroBlock)
  have hsubD : ∀ s, s < SUB_BLOCKS_PER_BLOCK →
      (br.blocks.getD k zeroBlock).sub_blocks.getD s 0 =
        wordOnes ((br.blocks.getD k zeroBlock).bits.take s) := by
    intro s hs
    rw [hsubsk, subCountsFrom_fst_getD _ 0 s (by rw [hshape.1]; exact hs), Nat.zero_add]
  refine ⟨?_, ?_, hsubD, ?_⟩
  · rw [hc.ranks k hk, rank_eq_blocksOnes hc k (le_of_lt hk)]
  · intro k2 hk2 hk2lt
    rw [hc.ranks k hk, hc.ranks k2 hk2lt]
    apply List.countP_mono_left
    intro x _ hx
    simp only [decide_eq_true_eq] at hx ⊢
    have : k * BITS_PER_BLOCK ≤ k2 * BITS_PER_BLOCK := Nat.mul_le_mul_right _ hk2
    omega
  · rw [hsubD 0 (by rw [SUB_BLOCKS_PER_BLOCK_eq]; omega)]
    rfl

theorem claim8_witness :
    List.Pairwise (· < ·) [1, 20000] ∧
      (bitrank [1, 20000]).elim False (fun br =>
        ∀ k, k < br.blocks.length →
          (br.blocks.getD k zeroBlock).rank = blocksOnes (br.blocks.take k) ∧
          (∀ k2, k ≤ k2 → k2 < br.blocks.length →
            (br.blocks.getD k zeroBlock).rank ≤ (br.blocks.getD k2 zeroBlock).rank) ∧
          (∀ s, s < SUB_BLOCKS_PER_BLOCK →
            (br.blocks.getD k zeroBlock).sub_blocks.getD s 0 =
              wordOnes ((br.blocks.getD k zeroBlock).bits.take s)) ∧
          (br.blocks.getD k zeroBlock).sub_blocks.getD 0 0 = 0) := by
  refine ⟨by decide, ?_⟩
  cases hbr : bitrank [1, 20000] with
  | none => exact absurd hbr (by decide)
  | some br => exact claim8_block_index_invariants [1, 20000] (by decide) br hbr

/-- C9: for every block of a finished structure, `total_rank` (base rank plus
the last `sub_blocks` entry plus the popcount of the remaining words) equals
the block's base rank plus the population count of all of its words summed
directly. -/
theorem claim9_total_rank_two_ways (P : List Nat) (hP : List.Pairwise (· < ·) P)
    (br : BitRank) (hbr : bitrank P = some br) :
    ∀ blk ∈ br.blocks, blk.total_rank = blk.rank + (blk.bits.map popCount).sum := by
  have fin := bitrank_fin hP hbr
  intro blk hmem
  obtain ⟨k, hk, hgetk⟩ := List.getElem_of_mem hmem
  have hgetD : br.blocks.getD k zeroBlock = blk := by
    rw [getD_of_lt _ hk]
    exact hgetk
  exact total_rank_eq_rank_add_ones (fin.1.shape blk hmem) (hgetD ▸ fin.2 k hk)

theorem claim9_witness :
    List.Pairwise (· < ·) [0, 200] ∧
      (bitrank [0, 200]).elim False (fun br =>
        ∀ blk ∈ br.blocks, blk.total_rank = blk.rank + (blk.bits.map popCount).sum) := by
  refine ⟨by decide, ?_⟩
  cases hbr : bitrank [0, 200] with
  | none => exact absurd hbr (by decide)
  | some br => exact claim9_total_rank_two_ways [0, 200] (by decide) br hbr

/-- C10: on every finished structure, the query path of `rank` /
`rank_select` hits none of its potential panic points (out-of-bounds
indexing, a shift by 128 or more, or subtraction underflow) for any index:
the panic-checked model returns `some` of the total model's answer, and any
reconstructed select position is strictly below the queried index, so the
position arithmetic cannot overflow. -/
theorem claim10_query_never_panics (P : List Nat) (hP : List.Pairwise (· < ·) P)
    (br : BitRank) (hbr : bitrank P = some br) (idx : Nat) :
    br.rankSelectChecked idx = some (br.rank_select idx) ∧
      ∀ pos, (br.rank_select idx).2 = some pos → pos < idx := by
  have fin := bitrank_fin hP hbr
  refine ⟨rankSelectChecked_eq fin idx, ?_⟩
  intro pos h
  exact ((rank_select_snd_iff fin idx pos).mp h).2.1

theorem claim10_witness :
    List.Pairwise (· < ·) [1, 5, 200] ∧
      (bitrank [1, 5, 200]).elim False (fun br =>
        br.rankSelectChecked 100 = some (br.rank_select 100) ∧
          ∀ pos, (br.rank_select 100).2 = some pos → pos < 100) := by
  refine ⟨by decide, ?_⟩
  cases hbr : bitrank [1, 5, 200] with
  | none => exact absurd hbr (by decide)
  | some br => exact claim10_query_never_panics [1, 5, 200] (by decide) br hbr 100

end BitRankModel
